import Mathlib

/-!
Event log and string utilities

A shallow embedding of the two Go programs of the repository:

* `dual-license-and-spdx-apache-gpl.go`: the in-memory `EventLogger`
  (`NewEventLogger`, `LogEvent`, `GetEvent`, `GetEventsByName`,
  `GetEventCount`, `ClearEvents`);
* `mit-license.go`: `StringUtils.Reverse` and `StringUtils.ToTitle`.

Conventions of the embedding.

* A Go `string` is a finite sequence of bytes (`GoString`); it need not be
  valid UTF-8. The conversions `[]rune(s)` and `string(runes)` are the
  language's UTF-8 decoder and encoder, embedded as `runesOf` and
  `stringOfRunes`.
* A method with a pointer receiver that mutates the logger is a function from
  the old logger to the new one; `time.Now()` is an explicit argument.
* Go `int` is embedded as `Int`. The only arithmetic on it is `nextID++`; on a
  logger built by the program `nextID` is one more than `len(events)`, and a
  slice length never comes near the top of the `int` range, so `LogEvent`
  takes the increment in the integers. For arbitrary logger states the method
  bodies (`LogEventBody` and the others) are embedded a second time, statement
  by statement, with the wrapping increment `intSucc` of a Go `int`.
* Text written to the standard output is the returned `GoString`; the layout
  of `Timestamp.Format`, which depends on the time zone, is a parameter.
* A Go `rune` is embedded as a natural number: every rune the programs handle
  comes out of the UTF-8 decoder or of a case mapping and is never negative.
* The value type of the `Data` map is never inspected: it is a type parameter.
* The Unicode tables of the library beyond ASCII are a parameter
  (`unicode.Tables`). `strings.Map` is embedded by what it returns: the mapped
  code points, encoded again, an invalid byte of the input counting as U+FFFD.
-/

/-! ## The Go language and library layer -/

/-- A byte of a Go string. -/
abbrev Byte := Fin 256

/-- A Go `string`: an immutable sequence of bytes. -/
abbrev GoString := List Byte

/-- The conversion `byte(x)`: the low eight bits. -/
def byteOf (x : Nat) : Byte := ⟨x % 256, Nat.mod_lt x (by decide)⟩

namespace utf8

/-- The replacement character U+FFFD. -/
def RuneError : Nat := 0xFFFD

/-- The largest code point, U+10FFFF. -/
def MaxRune : Nat := 0x10FFFF

/-- Whether a rune is a Unicode scalar value: at most `MaxRune` and not a
surrogate. -/
def ValidRune (r : Nat) : Bool :=
  decide (r ≤ MaxRune) && !(decide (0xD800 ≤ r) && decide (r ≤ 0xDFFF))

/-- Whether a byte is a continuation byte (`locb <= b && b <= hicb`). -/
def isCont (b : Byte) : Bool := decide (0x80 ≤ b.val) && decide (b.val ≤ 0xBF)

/-- The decoder of the language runtime (`decoderune`, with the one-byte case
of its callers): the rune that starts with byte `b0` followed by `rest`, and
the number of bytes it takes. An encoding that is cut short, too long for its
rune, a surrogate or beyond `MaxRune` gives `RuneError` with width 1. -/
def decodeRune (b0 : Byte) (rest : GoString) : Nat × Nat :=
  if b0.val < 0x80 then (b0.val, 1)
  else if 0xC0 ≤ b0.val ∧ b0.val < 0xE0 then
    match rest with
    | b1 :: _ =>
      let r := (b0.val &&& 0x1F) <<< 6 ||| (b1.val &&& 0x3F)
      if isCont b1 ∧ 0x7F < r then (r, 2) else (RuneError, 1)
    | _ => (RuneError, 1)
  else if 0xE0 ≤ b0.val ∧ b0.val < 0xF0 then
    match rest with
    | b1 :: b2 :: _ =>
      let r := (b0.val &&& 0x0F) <<< 12 ||| (b1.val &&& 0x3F) <<< 6 ||| (b2.val &&& 0x3F)
      if isCont b1 ∧ isCont b2 ∧ 0x7FF < r ∧ ¬ (0xD800 ≤ r ∧ r ≤ 0xDFFF) then (r, 3)
      else (RuneError, 1)
    | _ => (RuneError, 1)
  else if 0xF0 ≤ b0.val ∧ b0.val < 0xF8 then
    match rest with
    | b1 :: b2 :: b3 :: _ =>
      let r := (b0.val &&& 0x07) <<< 18 ||| (b1.val &&& 0x3F) <<< 12
        ||| (b2.val &&& 0x3F) <<< 6 ||| (b3.val &&& 0x3F)
      if isCont b1 ∧ isCont b2 ∧ isCont b3 ∧ 0xFFFF < r ∧ r ≤ MaxRune then (r, 4)
      else (RuneError, 1)
    | _ => (RuneError, 1)
  else (RuneError, 1)

/-- The encoder of the language runtime (`encoderune`): the UTF-8 bytes of a
rune; a surrogate or a value beyond `MaxRune` is written as `RuneError`. -/
def encodeRune (r : Nat) : GoString :=
  if r ≤ 0x7F then [byteOf r]
  else if r ≤ 0x7FF then
    [byteOf (0xC0 ||| (byteOf (r >>> 6)).val),
     byteOf (0x80 ||| ((byteOf r).val &&& 0x3F))]
  else if MaxRune < r ∨ (0xD800 ≤ r ∧ r ≤ 0xDFFF) then
    [byteOf (0xE0 ||| (byteOf (RuneError >>> 12)).val),
     byteOf (0x80 ||| ((byteOf (RuneError >>> 6)).val &&& 0x3F)),
     byteOf (0x80 ||| ((byteOf RuneError).val &&& 0x3F))]
  else if r ≤ 0xFFFF then
    [byteOf (0xE0 ||| (byteOf (r >>> 12)).val),
     byteOf (0x80 ||| ((byteOf (r >>> 6)).val &&& 0x3F)),
     byteOf (0x80 ||| ((byteOf r).val &&& 0x3F))]
  else
    [byteOf (0xF0 ||| (byteOf (r >>> 18)).val),
     byteOf (0x80 ||| ((byteOf (r >>> 12)).val &&& 0x3F)),
     byteOf (0x80 ||| ((byteOf (r >>> 6)).val &&& 0x3F)),
     byteOf (0x80 ||| ((byteOf r).val &&& 0x3F))]

end utf8

/-- The walk of `[]rune(s)` over the bytes of `s`: `skip` is the number of
bytes still to pass over because they belong to the rune decoded last. -/
def runesFrom : Nat → GoString → List Nat
  | _, [] => []
  | skip + 1, _ :: rest => runesFrom skip rest
  | 0, b0 :: rest => (utf8.decodeRune b0 rest).1 :: runesFrom ((utf8.decodeRune b0 rest).2 - 1) rest

/-- The conversion `[]rune(s)`: the code points of `s`, with `RuneError` for
every byte that starts no valid encoding. -/
def runesOf (s : GoString) : List Nat := runesFrom 0 s

/-- The conversion `string(runes)`: the UTF-8 encodings, concatenated. -/
def stringOfRunes (runes : List Nat) : GoString :=
  runes.flatMap utf8.encodeRune

/-- The Go string written as the literal `s` in a source file. -/
def goStr (s : String) : GoString := stringOfRunes (s.data.map Char.toNat)

namespace unicode

/-- The Unicode tables of the library for the code points beyond ASCII: the
lower-case and title-case mappings and the letter, digit and white-space
classes. The programs fix none of them; they are a parameter. -/
structure Tables where
  lower : Nat → Nat
  title : Nat → Nat
  isLetter : Nat → Bool
  isDigit : Nat → Bool
  isSpace : Nat → Bool

/-- Tables without any entry, for evaluating on ASCII text, where no table is
read. -/
def noTables : Tables :=
  { lower := id, title := id, isLetter := fun _ => false, isDigit := fun _ => false,
    isSpace := fun _ => false }

/-- The library function `unicode.ToLower`. -/
def ToLower (U : Tables) (r : Nat) : Nat :=
  if r ≤ 0x7F then
    if 'A'.toNat ≤ r ∧ r ≤ 'Z'.toNat then r + ('a'.toNat - 'A'.toNat) else r
  else U.lower r

/-- The library function `unicode.ToTitle`: upper case for ASCII. -/
def ToTitle (U : Tables) (r : Nat) : Nat :=
  if r ≤ 0x7F then
    if 'a'.toNat ≤ r ∧ r ≤ 'z'.toNat then r - ('a'.toNat - 'A'.toNat) else r
  else U.title r

/-- The library function `unicode.IsSpace`: in Latin-1 the six ASCII
white-space characters, U+0085 and U+00A0; the table beyond. -/
def IsSpace (U : Tables) (r : Nat) : Bool :=
  if r ≤ 0xFF then
    decide (r = 0x09 ∨ r = 0x0A ∨ r = 0x0B ∨ r = 0x0C ∨ r = 0x0D ∨ r = 0x20 ∨ r = 0x85 ∨ r = 0xA0)
  else U.isSpace r

end unicode

namespace strings

/-- The library function `strings.Map` for a mapping that never asks to drop a
rune: the mapping applied to every code point of `s`, encoded again. -/
def Map (mapping : Nat → Nat) (s : GoString) : GoString :=
  stringOfRunes ((runesOf s).map mapping)

/-- The library function `strings.ToLower`: byte by byte on a string that is
all ASCII, `Map(unicode.ToLower, s)` otherwise. -/
def ToLower (U : unicode.Tables) (s : GoString) : GoString :=
  if s.all fun c => decide (c.val < 0x80) then
    if s.any fun c => decide ('A'.toNat ≤ c.val ∧ c.val ≤ 'Z'.toNat) then
      s.map fun c =>
        if 'A'.toNat ≤ c.val ∧ c.val ≤ 'Z'.toNat then byteOf (c.val + ('a'.toNat - 'A'.toNat)) else c
    else s
  else Map (unicode.ToLower U) s

/-- The library function `isSeparator` behind `strings.Title`: in ASCII every
character but the letters, the digits and the underscore; beyond ASCII the
white space that is neither letter nor digit. -/
def isSeparator (U : unicode.Tables) (r : Nat) : Bool :=
  if r ≤ 0x7F then
    if '0'.toNat ≤ r ∧ r ≤ '9'.toNat then false
    else if 'a'.toNat ≤ r ∧ r ≤ 'z'.toNat then false
    else if 'A'.toNat ≤ r ∧ r ≤ 'Z'.toNat then false
    else if r = '_'.toNat then false
    else true
  else if U.isLetter r || U.isDigit r then false
  else unicode.IsSpace U r

/-- The closure that `strings.Title` hands to `Map`, run over the code points
in order: `prev` is the rune seen last, a space before the first one. -/
def titleRunes (U : unicode.Tables) : Nat → List Nat → List Nat
  | _, [] => []
  | prev, r :: rest =>
    (if isSeparator U prev then unicode.ToTitle U r else r) :: titleRunes U r rest

/-- The library function `strings.Title`. -/
def Title (U : unicode.Tables) (s : GoString) : GoString :=
  stringOfRunes (titleRunes U ' '.toNat (runesOf s))

/-- The library function `strings.Repeat`: `count` copies of `s`. -/
def Repeat (s : GoString) : Nat → GoString
  | 0 => []
  | count + 1 => s ++ Repeat s count

end strings

namespace fmt

/-- The digit loop of the integer formatter of `fmt`, which fills its buffer
from the right: while `u >= 10` it writes the digit `u - (u/10)*10` and goes on
with `u / 10`; the last digit is `u` itself. `fuel` bounds the iterations. -/
def decimalDigits : Nat → Nat → GoString → GoString
  | 0, u, buf => byteOf ('0'.toNat + u) :: buf
  | fuel + 1, u, buf =>
    if 10 ≤ u then decimalDigits fuel (u / 10) (byteOf ('0'.toNat + (u - u / 10 * 10)) :: buf)
    else byteOf ('0'.toNat + u) :: buf

/-- The verb `%d` of `fmt` for an `int`: the decimal digits, after a minus sign
for a negative number. -/
def formatInt (i : Int) : GoString :=
  if i < 0 then byteOf '-'.toNat :: decimalDigits i.natAbs i.natAbs []
  else decimalDigits i.natAbs i.natAbs []

end fmt

/-! ## `mit-license.go` -/

namespace StringUtils

/-- The element of the slice `runes` at the Go index `i`; `none` is the
run-time panic for an index outside the slice. -/
def runeAt (runes : List Nat) (i : Int) : Option Nat :=
  if 0 ≤ i then runes[i.toNat]? else none

/-- The loop of `Reverse` from the indices `i` and `j` on, run for at most
`fuel` evaluations of its condition: while `i < j` it swaps `runes[i]` and
`runes[j]`, then moves `i` up and `j` down. `none` when an index falls outside
the slice or the fuel runs out. -/
def swapLoop : Nat → List Nat → Int → Int → Option (List Nat)
  | 0, _, _, _ => none
  | fuel + 1, runes, i, j =>
    if i < j then
      match runeAt runes i, runeAt runes j with
      | some ri, some rj => swapLoop fuel ((runes.set i.toNat rj).set j.toNat ri) (i + 1) (j - 1)
      | _, _ => none
    else some runes

/-- Method `Reverse`: the runes of the input, the swap loop from `0` and
`len(runes)-1`, and the runes as a string again. -/
def Reverse (input : GoString) : Option GoString :=
  let runes := runesOf input
  (swapLoop (runes.length + 1) runes 0 ((runes.length : Int) - 1)).map stringOfRunes

/-- Method `ToTitle`: `strings.Title(strings.ToLower(input))`. -/
def ToTitle (U : unicode.Tables) (input : GoString) : GoString :=
  strings.Title U (strings.ToLower U input)

/-- The lower-case form of a code point as the specification means it: an
ASCII capital letter moved to its small letter, any other ASCII character as
it is, and the lower-case mapping of the Unicode tables beyond ASCII. -/
def lowerRune (U : unicode.Tables) (r : Nat) : Nat :=
  if 'A'.toNat ≤ r ∧ r ≤ 'Z'.toNat then r + 32 else if r < 0x80 then r else U.lower r

/-- The upper-case (title-case) form of a code point as the specification
means it: an ASCII small letter moved to its capital letter, any other ASCII
character as it is, and the title-case mapping of the Unicode tables beyond
ASCII. -/
def upperRune (U : unicode.Tables) (r : Nat) : Nat :=
  if 'a'.toNat ≤ r ∧ r ≤ 'z'.toNat then r - 32 else if r < 0x80 then r else U.title r

/-- White space: tab, line feed, vertical tab, form feed, carriage return,
space, U+0085, U+00A0, and beyond Latin-1 what the Unicode tables class as
white space. -/
def isSpaceRune (U : unicode.Tables) (r : Nat) : Bool :=
  decide (0x09 ≤ r ∧ r ≤ 0x0D) || decide (r = 0x20) || decide (r = 0x85) || decide (r = 0xA0) ||
  (decide (0xFF < r) && U.isSpace r)

/-- An ASCII letter, digit or underscore. -/
def isWordRune (r : Nat) : Bool :=
  decide ('a'.toNat ≤ r ∧ r ≤ 'z'.toNat) || decide ('A'.toNat ≤ r ∧ r ≤ 'Z'.toNat) ||
  decide ('0'.toNat ≤ r ∧ r ≤ '9'.toNat) || decide (r = '_'.toNat)

/-- The characters after which a word starts in the amended claim: in ASCII
every character that is not a letter, a digit or the underscore; beyond ASCII
white space that the tables class neither as letter nor as digit. -/
def isSeparatorRune (U : unicode.Tables) (r : Nat) : Bool :=
  if r < 0x80 then !isWordRune r else isSpaceRune U r && !U.isLetter r && !U.isDigit r

/-- Puts the first code point of every word in upper case: a word starts at
the start of the text (`atStart`) and after every code point that `sep`
accepts. -/
def capitalizeAfter (sep : Nat → Bool) (up : Nat → Nat) : Bool → List Nat → List Nat
  | _, [] => []
  | atStart, r :: rest => (if atStart then up r else r) :: capitalizeAfter sep up (sep r) rest

/-- The whole text in lower case, code point by code point. -/
def lowerCased (U : unicode.Tables) (input : GoString) : GoString :=
  stringOfRunes ((runesOf input).map (lowerRune U))

/-- Title case as the specification words it: the whole input in lower case,
then the first letter of every white-space-delimited word in upper case. -/
def titleByWhitespace (U : unicode.Tables) (input : GoString) : GoString :=
  stringOfRunes (capitalizeAfter (isSpaceRune U) (upperRune U) true (runesOf (lowerCased U input)))

/-- Title case as the amended claim words it: the whole input in lower case,
then the first letter of every word in upper case, where a word starts at the
start of the text and after every separator (`isSeparatorRune`). -/
def titleBySeparators (U : unicode.Tables) (input : GoString) : GoString :=
  stringOfRunes
    (capitalizeAfter (isSeparatorRune U) (upperRune U) true (runesOf (lowerCased U input)))

/-- Whether a byte is an ASCII letter. -/
def isASCIILetter (b : Byte) : Bool :=
  (decide ('a'.toNat ≤ b.val) && decide (b.val ≤ 'z'.toNat)) ||
  (decide ('A'.toNat ≤ b.val) && decide (b.val ≤ 'Z'.toNat))

/-- Whether a byte is an ASCII letter, digit or underscore, or one of the six
ASCII white-space characters. -/
def isWordOrSpaceByte (b : Byte) : Bool :=
  isASCIILetter b || (decide ('0'.toNat ≤ b.val) && decide (b.val ≤ '9'.toNat)) ||
  decide (b.val = '_'.toNat) ||
  decide (b.val = 0x09 ∨ b.val = 0x0A ∨ b.val = 0x0B ∨ b.val = 0x0C ∨ b.val = 0x0D ∨ b.val = 0x20)

/-- The upper-case form of an ASCII letter; any other byte as it is. -/
def asciiUpper (b : Byte) : Byte :=
  if 'a'.toNat ≤ b.val ∧ b.val ≤ 'z'.toNat then byteOf (b.val - ('a'.toNat - 'A'.toNat)) else b

/-- The lower-case form of an ASCII letter; any other byte as it is. -/
def asciiLower (b : Byte) : Byte :=
  if 'A'.toNat ≤ b.val ∧ b.val ≤ 'Z'.toNat then byteOf (b.val + ('a'.toNat - 'A'.toNat)) else b

end StringUtils

/-! ## `dual-license-and-spdx-apache-gpl.go` -/

namespace EventLog

/-- A reading of the wall clock (`time.Time`), kept abstract as a number. -/
abbrev Time := Int

/-- The struct `Event`. -/
structure Event (δ : Type) where
  ID : Int
  Name : GoString
  Timestamp : Time
  Data : δ
deriving DecidableEq, Repr

/-- The struct `EventLogger`. -/
structure EventLogger (δ : Type) where
  events : List (Event δ)
  nextID : Int
deriving DecidableEq, Repr

/-- Function `NewEventLogger`: an empty slice of events and `nextID` set to 1. -/
def NewEventLogger {δ : Type} : EventLogger δ :=
  { events := [], nextID := 1 }

/-- Method `LogEvent`: builds the event from `nextID`, the name, the clock reading
`now` and the data, appends it to the slice, increments `nextID` and returns
the event. The result is the logger after the call and the returned event.
The increment is taken in the integers; `LogEventBody` is the method with the
increment of a Go `int`, and the two agree wherever `nextID` is below the
largest `int` (`logEventBody_eq_logEvent`). -/
def LogEvent {δ : Type} (el : EventLogger δ) (now : Time) (name : GoString) (data : δ) :
    EventLogger δ × Event δ :=
  let event : Event δ := { ID := el.nextID, Name := name, Timestamp := now, Data := data }
  ({ events := el.events ++ [event], nextID := el.nextID + 1 }, event)

/-- The loop of `GetEvent`, started at slice index `i` on the events from that
index on: the index of the first event whose `ID` is `id`, if there is one. -/
def scanForID {δ : Type} (id : Int) : List (Event δ) → Nat → Option Nat
  | [], _ => none
  | e :: rest, i => if e.ID = id then some i else scanForID id rest (i + 1)

/-- The slot of `el.events` that `GetEvent` returns the address of (`none`
for `nil`). -/
def GetEventSlot {δ : Type} (el : EventLogger δ) (id : Int) : Option Nat :=
  scanForID id el.events 0

/-- Method `GetEvent`: the event the returned pointer points to, `none` for `nil`. -/
def GetEvent {δ : Type} (el : EventLogger δ) (id : Int) : Option (Event δ) :=
  (GetEventSlot el id).bind fun i => el.events[i]?

/-- The loop of `GetEventsByName` over the remaining events, with the slice
`result` built so far. -/
def collectByName {δ : Type} (name : GoString) : List (Event δ) → List (Event δ) → List (Event δ)
  | [], result => result
  | event :: rest, result =>
    if event.Name = name then collectByName name rest (result ++ [event])
    else collectByName name rest result

/-- Method `GetEventsByName`: the loop started on all events with an empty
result. -/
def GetEventsByName {δ : Type} (el : EventLogger δ) (name : GoString) : List (Event δ) :=
  collectByName name el.events []

/-- Method `GetEventCount`: `len(el.events)`. -/
def GetEventCount {δ : Type} (el : EventLogger δ) : Int :=
  (el.events.length : Int)

/-- Method `ClearEvents`: a new empty slice, and `nextID` set to 1. -/
def ClearEvents {δ : Type} (_el : EventLogger δ) : EventLogger δ :=
  { events := [], nextID := 1 }

/-- A call that mutates a logger. -/
inductive Call (δ : Type) where
  | logEvent (now : Time) (name : GoString) (data : δ)
  | clearEvents
deriving DecidableEq, Repr

/-- Whether a call is a `LogEvent` call. -/
def Call.isLog {δ : Type} : Call δ → Bool
  | .logEvent _ _ _ => true
  | .clearEvents => false

/-- The logger after one mutating call. -/
def applyCall {δ : Type} (el : EventLogger δ) : Call δ → EventLogger δ
  | .logEvent now name data => (LogEvent el now name data).1
  | .clearEvents => ClearEvents el

/-- The logger after a sequence of mutating calls, first call first. -/
def runCalls {δ : Type} (el : EventLogger δ) (calls : List (Call δ)) : EventLogger δ :=
  calls.foldl applyCall el

/-- The IDs of the events returned by the `LogEvent` calls of a sequence of
calls made on `el`, in call order: every ID the logger issued. -/
def issuedIDs {δ : Type} (el : EventLogger δ) : List (Call δ) → List Int
  | [] => []
  | .logEvent now name data :: rest =>
    (LogEvent el now name data).2.ID :: issuedIDs (LogEvent el now name data).1 rest
  | .clearEvents :: rest => issuedIDs (ClearEvents el) rest

/-- Method `LogEvent` called once per entry of `args`, in order: the logger after
the last call and the returned events in call order. -/
def logAll {δ : Type} (el : EventLogger δ) : List (Time × GoString × δ) → EventLogger δ × List (Event δ)
  | [] => (el, [])
  | (now, name, data) :: rest =>
    let r := LogEvent el now name data
    let rs := logAll r.1 rest
    (rs.1, r.2 :: rs.2)

/-- The number of `LogEvent` calls made since the most recent `ClearEvents`
of a sequence of calls (since its start when it has none). -/
def logsSinceClear {δ : Type} (calls : List (Call δ)) : Nat :=
  (calls.reverse.takeWhile Call.isLog).length

/-- The shape of every logger the program can build: the stored IDs are
1, 2, ..., n and `nextID` is n + 1. -/
def WellNumbered {δ : Type} (el : EventLogger δ) : Prop :=
  el.events.map Event.ID = (List.range el.events.length).map (fun i : Nat => (i : Int) + 1) ∧
  el.nextID = (el.events.length : Int) + 1

/-- The loop of `PrintSummary`: for every event, in order, the text of
`fmt.Printf("ID: %d | Name: %s | Time: %s\n", ...)`, where `format` stands for
`Timestamp.Format("2006-01-02 15:04:05")`. -/
def printEvents {δ : Type} (format : Time → GoString) : List (Event δ) → GoString
  | [] => []
  | event :: rest =>
    goStr "ID: " ++ fmt.formatInt event.ID ++ goStr " | Name: " ++ event.Name ++
      goStr " | Time: " ++ format event.Timestamp ++ goStr "\n" ++ printEvents format rest

/-- Method `PrintSummary`: the text it writes to the standard output: the
count line, the line of `strings.Repeat("-", 50)` written by `Println`, and
the event lines. -/
def PrintSummary {δ : Type} (format : Time → GoString) (el : EventLogger δ) : GoString :=
  goStr "Total Events: " ++ fmt.formatInt (el.events.length : Int) ++ goStr "\n" ++
    (strings.Repeat (goStr "-") 50 ++ goStr "\n") ++ printEvents format el.events

/-- The line feed. -/
def newline : Byte := 0x0A

/-- The lines of a text: the runs of bytes between line feeds, each ended by
a line feed; `cur` is the line read so far. Bytes after the last line feed
make a last line of their own. -/
def linesFrom (cur : GoString) : GoString → List GoString
  | [] => if cur = [] then [] else [cur]
  | b :: rest => if b = newline then cur :: linesFrom [] rest else linesFrom (cur ++ [b]) rest

/-- The lines of a text, without their line feeds. -/
def linesOf (text : GoString) : List GoString := linesFrom [] text

/-- The lines that the specification lists for the summary of a logger: the
count line, the 50 dashes, and one line for every stored event in order. -/
def summaryLines {δ : Type} (format : Time → GoString) (el : EventLogger δ) : List GoString :=
  [goStr "Total Events: " ++ fmt.formatInt (el.events.length : Int), List.replicate 50 (byteOf '-'.toNat)] ++
    el.events.map fun e =>
      goStr "ID: " ++ fmt.formatInt e.ID ++ goStr " | Name: " ++ e.Name ++ goStr " | Time: " ++
        format e.Timestamp

/-! ### The method bodies on the machine

The functions above give what each method returns and the logger it leaves,
with `nextID++` taken in the integers. Below, every method body is embedded
statement by statement as a computation on its receiver, with reads and
assignments of the fields made explicit and `nextID++` taken in a Go `int`. -/

/-- The value of `x + 1` in a Go `int` of `bits` bits, in two's complement:
the largest `int` is followed by the smallest. -/
def intSucc (bits : Nat) (x : Int) : Int :=
  (x + 1 + 2 ^ (bits - 1)) % (2 * 2 ^ (bits - 1)) - 2 ^ (bits - 1)

/-- The largest `int` of `bits` bits. -/
def maxInt (bits : Nat) : Int := 2 ^ (bits - 1) - 1

/-- The smallest `int` of `bits` bits. -/
def minInt (bits : Nat) : Int := -(2 ^ (bits - 1))

/-- A method body run on its receiver `el`: `none` is a run-time panic,
otherwise the value returned and the receiver after the call. -/
def Body (δ α : Type) : Type := EventLogger δ → Option (α × EventLogger δ)

instance {δ : Type} : Monad (Body δ) where
  pure a := fun el => some (a, el)
  bind m f := fun el =>
    match m el with
    | none => none
    | some (a, el') => f a el'

/-- The expression `el.events`. -/
def readEvents {δ : Type} : Body δ (List (Event δ)) := fun el => some (el.events, el)

/-- The expression `el.nextID`. -/
def readNextID {δ : Type} : Body δ Int := fun el => some (el.nextID, el)

/-- The expression `el.events[i]`, which panics outside the slice. -/
def eventAt {δ : Type} (i : Nat) : Body δ (Event δ) := fun el =>
  match el.events[i]? with
  | some e => some (e, el)
  | none => none

/-- The assignment `el.events = events`. -/
def setEvents {δ : Type} (events : List (Event δ)) : Body δ Unit := fun el =>
  some ((), { el with events := events })

/-- The assignment `el.nextID = n`. -/
def setNextID {δ : Type} (n : Int) : Body δ Unit := fun el =>
  some ((), { el with nextID := n })

/-- The body of `LogEvent` on a machine whose `int` has `bits` bits: the event
is built, `el.events = append(el.events, event)`, `el.nextID++`, and the event
is returned. -/
def LogEventBody {δ : Type} (bits : Nat) (now : Time) (name : GoString) (data : δ) :
    Body δ (Event δ) := do
  let event : Event δ := { ID := (← readNextID), Name := name, Timestamp := now, Data := data }
  setEvents ((← readEvents) ++ [event])
  setNextID (intSucc bits (← readNextID))
  return event

/-- The loop `for i := range el.events` of `GetEvent` from index `i` on, with
`n` indices still to visit. -/
def scanBody {δ : Type} (id : Int) : Nat → Nat → Body δ (Option Nat)
  | _, 0 => return none
  | i, n + 1 => do
    if (← eventAt i).ID = id then return some i
    else scanBody id (i + 1) n

/-- The body of `GetEvent`; the value is the slot whose address is returned.
The body itself writes nothing through that address. -/
def GetEventBody {δ : Type} (id : Int) : Body δ (Option Nat) := do
  scanBody id 0 (← readEvents).length

/-- The loop `for _, event := range el.events` of `GetEventsByName` from index
`i` on, with `n` indices still to visit and the local slice `result`. -/
def collectBody {δ : Type} (name : GoString) : Nat → Nat → List (Event δ) → Body δ (List (Event δ))
  | _, 0, result => return result
  | i, n + 1, result => do
    let event ← eventAt i
    if event.Name = name then collectBody name (i + 1) n (result ++ [event])
    else collectBody name (i + 1) n result

/-- The body of `GetEventsByName`. -/
def GetEventsByNameBody {δ : Type} (name : GoString) : Body δ (List (Event δ)) := do
  collectBody name 0 (← readEvents).length []

/-- The body of `GetEventCount`. -/
def GetEventCountBody {δ : Type} : Body δ Int := do
  return ((← readEvents).length : Int)

/-- The body of `ClearEvents`. -/
def ClearEventsBody {δ : Type} : Body δ Unit := do
  setEvents []
  setNextID 1

/-- The loop of `PrintSummary` from index `i` on, with `n` indices still to
visit; `out` is the text written so far. -/
def printEventsBody {δ : Type} (format : Time → GoString) : Nat → Nat → GoString → Body δ GoString
  | _, 0, out => return out
  | i, n + 1, out => do
    let event ← eventAt i
    printEventsBody format (i + 1) n
      (out ++ (goStr "ID: " ++ fmt.formatInt event.ID ++ goStr " | Name: " ++ event.Name ++
        goStr " | Time: " ++ format event.Timestamp ++ goStr "\n"))

/-- The body of `PrintSummary`; the value is the text written to the standard
output. -/
def PrintSummaryBody {δ : Type} (format : Time → GoString) : Body δ GoString := do
  let line1 := goStr "Total Events: " ++ fmt.formatInt ((← readEvents).length : Int) ++ goStr "\n"
  let line2 := strings.Repeat (goStr "-") 50 ++ goStr "\n"
  printEventsBody format 0 (← readEvents).length (line1 ++ line2)

/-- A call of one of the six methods of a logger. -/
inductive Method (δ : Type) where
  | logEvent (now : Time) (name : GoString) (data : δ)
  | getEvent (id : Int)
  | getEventsByName (name : GoString)
  | getEventCount
  | clearEvents
  | printSummary

/-- The receiver after a method call, as the body of the method leaves it;
`none` when the body panics. -/
def receiverAfter {δ : Type} (bits : Nat) (format : Time → GoString) (el : EventLogger δ) :
    Method δ → Option (EventLogger δ)
  | .logEvent now name data => (LogEventBody bits now name data el).map Prod.snd
  | .getEvent id => (GetEventBody id el).map Prod.snd
  | .getEventsByName name => (GetEventsByNameBody name el).map Prod.snd
  | .getEventCount => (GetEventCountBody el).map Prod.snd
  | .clearEvents => (ClearEventsBody el).map Prod.snd
  | .printSummary => (PrintSummaryBody format el).map Prod.snd

end EventLog

/-! ## Theorems: the event log -/

set_option maxRecDepth 10000

namespace EventLog

variable {δ : Type}

theorem logAll_ids_from (args : List (Time × GoString × δ)) (el : EventLogger δ) :
    (logAll el args).2.map Event.ID = (List.range args.length).map fun i : Nat => el.nextID + (i : Int) := by
  induction args generalizing el with
  | nil => simp [logAll]
  | cons a rest ih =>
    obtain ⟨now, name, data⟩ := a
    simp only [logAll, List.map_cons, List.length_cons, List.range_succ_eq_map, List.map_map]
    rw [ih]
    simp only [LogEvent, Nat.cast_zero, add_zero, List.cons.injEq, true_and]
    apply List.map_congr_left
    intro i _
    simp only [Function.comp_apply, Nat.succ_eq_add_one, Nat.cast_add, Nat.cast_one]
    omega

theorem runCalls_append (el : EventLogger δ) (cs : List (Call δ)) (c : Call δ) :
    runCalls el (cs ++ [c]) = applyCall (runCalls el cs) c := by
  simp [runCalls, List.foldl_append]

theorem wellNumbered_new : WellNumbered (NewEventLogger : EventLogger δ) := by
  simp [WellNumbered, NewEventLogger]

theorem wellNumbered_applyCall (el : EventLogger δ) (c : Call δ) (h : WellNumbered el) :
    WellNumbered (applyCall el c) := by
  cases c with
  | clearEvents => simp [WellNumbered, applyCall, ClearEvents]
  | logEvent now name data =>
    obtain ⟨h1, h2⟩ := h
    refine ⟨?_, ?_⟩
    · simp only [applyCall, LogEvent, List.map_append, List.length_append, List.length_cons,
        List.length_nil, List.range_succ, h1, List.map_cons, List.map_nil, h2]
    · simp only [applyCall, LogEvent, List.length_append, List.length_cons, List.length_nil, h2]
      push_cast
      ring

theorem wellNumbered_runCalls (calls : List (Call δ)) :
    WellNumbered (runCalls (NewEventLogger : EventLogger δ) calls) := by
  induction calls using List.reverseRecOn with
  | nil => exact wellNumbered_new
  | append_singleton cs c ih =>
    rw [runCalls_append]
    exact wellNumbered_applyCall _ c ih

theorem pairwise_lt_range_succ (n : Nat) :
    ((List.range n).map (fun i : Nat => (i : Int) + 1)).Pairwise (· < ·) := by
  rw [List.pairwise_map]
  have h := List.pairwise_lt_range n
  exact h.imp (fun hab => by simp only [add_lt_add_iff_right, Nat.cast_lt]; exact hab)

theorem scanForID_bind_get (id : Int) (l pre : List (Event δ)) :
    (scanForID id l pre.length).bind (fun i => (pre ++ l)[i]?) =
      l.find? (fun e => decide (e.ID = id)) := by
  induction l generalizing pre with
  | nil => simp [scanForID]
  | cons e rest ih =>
    by_cases h : e.ID = id
    · simp only [scanForID, h, if_true, Option.some_bind, decide_True, List.find?_cons_of_pos]
      rw [List.getElem?_append_right (le_refl _)]
      simp
    · have h2 := ih (pre ++ [e])
      simp only [List.length_append, List.length_cons, List.length_nil, List.append_assoc,
        List.singleton_append] at h2
      simp [scanForID, h, h2]

theorem getEvent_eq_find (el : EventLogger δ) (id : Int) :
    GetEvent el id = el.events.find? (fun e => decide (e.ID = id)) := by
  have h := scanForID_bind_get id el.events []
  simpa [GetEvent, GetEventSlot] using h

theorem find_of_mem_of_pairwise (l : List (Event δ)) (hl : (l.map Event.ID).Pairwise (· < ·))
    (e : Event δ) (he : e ∈ l) : l.find? (fun x => decide (x.ID = e.ID)) = some e := by
  induction l with
  | nil => cases he
  | cons a rest ih =>
    rw [List.map_cons, List.pairwise_cons] at hl
    rcases List.mem_cons.1 he with h | h
    · subst h
      simp
    · have hlt : a.ID < e.ID := hl.1 _ (List.mem_map_of_mem _ h)
      have hne : ¬ a.ID = e.ID := by omega
      simp [List.find?_cons, hne, ih hl.2 h]

theorem stored_ids_issued (calls : List (Call δ)) (el : EventLogger δ) (e : Event δ)
    (he : e ∈ (runCalls el calls).events) :
    e.ID ∈ el.events.map Event.ID ∨ e.ID ∈ issuedIDs el calls := by
  induction calls generalizing el with
  | nil => exact Or.inl (List.mem_map_of_mem _ he)
  | cons c rest ih =>
    cases c with
    | clearEvents =>
      have h := ih (ClearEvents el) he
      simp only [ClearEvents, List.map_nil, List.not_mem_nil, false_or] at h
      exact Or.inr (by simpa [issuedIDs, ClearEvents] using h)
    | logEvent now name data =>
      have h := ih (LogEvent el now name data).1 he
      simp only [LogEvent, List.map_append, List.map_cons, List.map_nil, List.mem_append,
        List.mem_singleton] at h
      simp only [issuedIDs, LogEvent, List.mem_cons]
      tauto

theorem collectByName_eq (name : GoString) (l acc : List (Event δ)) :
    collectByName name l acc = acc ++ l.filter (fun e => decide (e.Name = name)) := by
  induction l generalizing acc with
  | nil => simp [collectByName]
  | cons e rest ih =>
    by_cases h : e.Name = name
    · simp [collectByName, h, ih]
    · simp [collectByName, h, ih]

theorem logsSinceClear_append (cs : List (Call δ)) (c : Call δ) :
    logsSinceClear (cs ++ [c]) = if c.isLog then logsSinceClear cs + 1 else 0 := by
  cases hc : c.isLog <;> simp [logsSinceClear, List.takeWhile_cons, hc]

/-- Claim C1: On a logger fresh from `NewEventLogger`, `LogEvent` called once per
entry of any list of N arguments returns events whose IDs are 1, 2, ..., N in
call order. -/
theorem logEvent_ids_count_from_one (args : List (Time × GoString × δ)) :
    (logAll (NewEventLogger : EventLogger δ) args).2.map Event.ID =
      (List.range args.length).map (fun i : Nat => (i : Int) + 1) := by
  rw [logAll_ids_from]
  apply List.map_congr_left
  intro i _
  simp only [NewEventLogger]
  omega

/-- Claim C2: On every logger reached from `NewEventLogger` by `LogEvent` and
`ClearEvents` calls, `GetEvent` at the ID of a stored event returns that
event, and `GetEvent` at an ID the logger never issued returns nil. -/
theorem getEvent_exact (calls : List (Call δ)) :
    (∀ e ∈ (runCalls (NewEventLogger : EventLogger δ) calls).events,
      GetEvent (runCalls NewEventLogger calls) e.ID = some e) ∧
    (∀ id : Int, id ∉ issuedIDs (NewEventLogger : EventLogger δ) calls →
      GetEvent (runCalls NewEventLogger calls) id = none) := by
  refine ⟨?_, ?_⟩
  · intro e he
    rw [getEvent_eq_find]
    apply find_of_mem_of_pairwise _ _ e he
    rw [(wellNumbered_runCalls calls).1]
    exact pairwise_lt_range_succ _
  · intro id hid
    rw [getEvent_eq_find, List.find?_eq_none]
    intro e he
    have h := stored_ids_issued calls NewEventLogger e he
    simp only [NewEventLogger, List.map_nil, List.not_mem_nil, false_or] at h
    simp only [decide_eq_true_eq]
    intro heq
    exact hid (heq ▸ h)

/-- Witness of claim C2: log two events, clear, log one more; the stored event is
found at its ID 1, and ID 3, never issued, is absent. -/
theorem getEvent_exact_witness :
    GetEvent (runCalls (NewEventLogger : EventLogger Nat)
        [.logEvent 10 (goStr "a") 0, .logEvent 11 (goStr "b") 1, .clearEvents,
          .logEvent 12 (goStr "c") 2]) 1
      = some { ID := 1, Name := goStr "c", Timestamp := 12, Data := 2 } ∧
    GetEvent (runCalls (NewEventLogger : EventLogger Nat)
        [.logEvent 10 (goStr "a") 0, .logEvent 11 (goStr "b") 1, .clearEvents,
          .logEvent 12 (goStr "c") 2]) 3 = none :=
  ⟨(getEvent_exact _).1 { ID := 1, Name := goStr "c", Timestamp := 12, Data := 2 } (by decide),
   (getEvent_exact _).2 3 (by decide)⟩

/-- Claim C3: In every logger state and for every name, `GetEventsByName` returns
the stored sequence filtered by `Name == name`: exactly the events with that
name, each once, in stored order. -/
theorem getEventsByName_eq_filter (el : EventLogger δ) (name : GoString) :
    GetEventsByName el name = el.events.filter (fun e => decide (e.Name = name)) := by
  simp [GetEventsByName, collectByName_eq]

/-- Claim C4: From every logger state, after `ClearEvents` the event sequence is
empty, `GetEventCount` is 0, `nextID` is 1 and the next `LogEvent` returns an
event with ID 1; so does the second event of append, clear, append. -/
theorem clearEvents_resets (el : EventLogger δ) :
    (ClearEvents el).events = [] ∧ GetEventCount (ClearEvents el) = 0 ∧
    (ClearEvents el).nextID = 1 ∧
    (∀ (now : Time) (name : GoString) (data : δ),
      (LogEvent (ClearEvents el) now name data).2.ID = 1) ∧
    (∀ (t1 t2 : Time) (n1 n2 : GoString) (d1 d2 : δ),
      (LogEvent (ClearEvents (LogEvent NewEventLogger t1 n1 d1).1) t2 n2 d2).2.ID = 1) := by
  simp [ClearEvents, GetEventCount, LogEvent]

/-- Claim C9: In every logger reached from `NewEventLogger` by `LogEvent` and
`ClearEvents` calls the stored event at 0-based position i has ID i + 1 and
`nextID` is `GetEventCount() + 1`; hence the stored IDs are positive, strictly
increasing in storage order and pairwise distinct. -/
theorem reachable_ids_are_positions (calls : List (Call δ)) :
    (runCalls (NewEventLogger : EventLogger δ) calls).events.map Event.ID =
      (List.range (runCalls (NewEventLogger : EventLogger δ) calls).events.length).map
        (fun i : Nat => (i : Int) + 1) ∧
    (runCalls (NewEventLogger : EventLogger δ) calls).nextID =
      GetEventCount (runCalls (NewEventLogger : EventLogger δ) calls) + 1 ∧
    (∀ e ∈ (runCalls (NewEventLogger : EventLogger δ) calls).events, 0 < e.ID) ∧
    ((runCalls (NewEventLogger : EventLogger δ) calls).events.map Event.ID).Pairwise (· < ·) ∧
    ((runCalls (NewEventLogger : EventLogger δ) calls).events.map Event.ID).Nodup := by
  have hw := wellNumbered_runCalls calls
  have hp : ((runCalls (NewEventLogger : EventLogger δ) calls).events.map Event.ID).Pairwise
      (· < ·) := by
    rw [hw.1]
    exact pairwise_lt_range_succ _
  refine ⟨hw.1, hw.2, ?_, hp, hp.imp (fun h => ne_of_lt h)⟩
  intro e he
  have hm : e.ID ∈ (runCalls (NewEventLogger : EventLogger δ) calls).events.map Event.ID :=
    List.mem_map_of_mem _ he
  rw [hw.1, List.mem_map] at hm
  obtain ⟨i, _, hi⟩ := hm
  omega

/-- Witness of claim C9: after two appends, a clear and two more appends the stored
IDs are 1 and 2 and both are positive. -/
theorem reachable_ids_are_positions_witness :
    (0 : Int) < ({ ID := 2, Name := goStr "d", Timestamp := 13, Data := 3 } : Event Nat).ID :=
  (reachable_ids_are_positions
    [.logEvent 10 (goStr "a") 0, .logEvent 11 (goStr "b") 1, .clearEvents,
      .logEvent 12 (goStr "c") 2, .logEvent 13 (goStr "d") 3]).2.2.1
    { ID := 2, Name := goStr "d", Timestamp := 13, Data := 3 } (by decide)

/-- Claim C10: After every sequence of `LogEvent` and `ClearEvents` calls on a fresh
logger `GetEventCount` is the number of `LogEvent` calls since the most recent
`ClearEvents` (since creation if there was none); every `LogEvent` raises
`GetEventCount` by exactly 1, and a fresh logger has count 0. -/
theorem getEventCount_counts_logs_since_clear (calls : List (Call δ)) :
    GetEventCount (runCalls (NewEventLogger : EventLogger δ) calls) = (logsSinceClear calls : Int) ∧
    (∀ (el : EventLogger δ) (now : Time) (name : GoString) (data : δ),
      GetEventCount (LogEvent el now name data).1 = GetEventCount el + 1) ∧
    GetEventCount (NewEventLogger : EventLogger δ) = 0 := by
  refine ⟨?_, ?_, ?_⟩
  · induction calls using List.reverseRecOn with
    | nil => simp [runCalls, NewEventLogger, GetEventCount, logsSinceClear]
    | append_singleton cs c ih =>
      rw [runCalls_append, logsSinceClear_append]
      cases c with
      | clearEvents => simp [applyCall, ClearEvents, GetEventCount, Call.isLog]
      | logEvent now name data =>
        simp only [GetEventCount] at ih
        simp [applyCall, LogEvent, GetEventCount, Call.isLog, ih]
  · intro el now name data
    simp [LogEvent, GetEventCount]
  · simp [NewEventLogger, GetEventCount]

end EventLog


/-! ## Theorems: UTF-8 -/

namespace utf8

theorem byteOf_val (x : Nat) : (byteOf x).val = x % 256 := rfl

theorem and_3F (x : Nat) : x &&& 0x3F = x % 64 := Nat.and_pow_two_sub_one_eq_mod x 6
theorem and_1F (x : Nat) : x &&& 0x1F = x % 32 := Nat.and_pow_two_sub_one_eq_mod x 5
theorem and_0F (x : Nat) : x &&& 0x0F = x % 16 := Nat.and_pow_two_sub_one_eq_mod x 4
theorem and_07 (x : Nat) : x &&& 0x07 = x % 8 := Nat.and_pow_two_sub_one_eq_mod x 3

theorem shl_lor (a b i : Nat) (h : b < 2 ^ i) : a <<< i ||| b = a * 2 ^ i + b := by
  rw [Nat.shiftLeft_eq, Nat.mul_comm, ← Nat.mul_add_lt_is_or h]

theorem lor_80 (x : Nat) (h : x < 64) : 0x80 ||| x = 0x80 + x :=
  (Nat.mul_add_lt_is_or (i := 6) h 2).symm
theorem lor_C0 (x : Nat) (h : x < 32) : 0xC0 ||| x = 0xC0 + x :=
  (Nat.mul_add_lt_is_or (i := 5) h 6).symm
theorem lor_E0 (x : Nat) (h : x < 16) : 0xE0 ||| x = 0xE0 + x :=
  (Nat.mul_add_lt_is_or (i := 4) h 14).symm
theorem lor_F0 (x : Nat) (h : x < 8) : 0xF0 ||| x = 0xF0 + x :=
  (Nat.mul_add_lt_is_or (i := 3) h 30).symm

end utf8

namespace utf8

theorem decodeRune_one (b0 : Byte) (rest : GoString) (h : b0.val < 0x80) :
    decodeRune b0 rest = (b0.val, 1) := by
  simp [decodeRune, h]

theorem decodeRune_two (b0 b1 : Byte) (rest : GoString)
    (h0 : 0xC0 ≤ b0.val ∧ b0.val < 0xE0) (h1 : 0x80 ≤ b1.val ∧ b1.val ≤ 0xBF)
    (hr : 0x7F < b0.val % 32 * 64 + b1.val % 64) :
    decodeRune b0 (b1 :: rest) = (b0.val % 32 * 64 + b1.val % 64, 2) := by
  have e : (b0.val &&& 0x1F) <<< 6 ||| (b1.val &&& 0x3F) = b0.val % 32 * 64 + b1.val % 64 := by
    rw [and_1F, and_3F, shl_lor _ _ 6 (by omega)]
    omega
  have n0 : ¬ b0.val < 0x80 := by omega
  simp only [decodeRune, n0, if_false, h0, and_self, if_true, isCont, e, hr, h1,
    decide_True, Bool.and_self]

theorem decodeRune_three (b0 b1 b2 : Byte) (rest : GoString)
    (h0 : 0xE0 ≤ b0.val ∧ b0.val < 0xF0) (h1 : 0x80 ≤ b1.val ∧ b1.val ≤ 0xBF)
    (h2 : 0x80 ≤ b2.val ∧ b2.val ≤ 0xBF)
    (hr : 0x7FF < b0.val % 16 * 4096 + b1.val % 64 * 64 + b2.val % 64)
    (hs : ¬ (0xD800 ≤ b0.val % 16 * 4096 + b1.val % 64 * 64 + b2.val % 64 ∧
      b0.val % 16 * 4096 + b1.val % 64 * 64 + b2.val % 64 ≤ 0xDFFF)) :
    decodeRune b0 (b1 :: b2 :: rest) = (b0.val % 16 * 4096 + b1.val % 64 * 64 + b2.val % 64, 3) := by
  have e : (b0.val &&& 0x0F) <<< 12 ||| (b1.val &&& 0x3F) <<< 6 ||| (b2.val &&& 0x3F)
      = b0.val % 16 * 4096 + b1.val % 64 * 64 + b2.val % 64 := by
    rw [and_0F, and_3F, and_3F, Nat.shiftLeft_eq (b1.val % 64) 6,
      shl_lor _ _ 12 (by omega)]
    have : b0.val % 16 * 2 ^ 12 + b1.val % 64 * 2 ^ 6 = (b0.val % 16 * 64 + b1.val % 64) <<< 6 := by
      rw [Nat.shiftLeft_eq]; omega
    rw [this, shl_lor _ _ 6 (by omega)]
    omega
  have n0 : ¬ b0.val < 0x80 := by omega
  have n1 : ¬ (0xC0 ≤ b0.val ∧ b0.val < 0xE0) := by omega
  simp only [decodeRune, n0, n1, if_false, h0, and_self, if_true, isCont, e, hr, hs, h1, h2,
    decide_True, Bool.and_self, not_false_eq_true]

theorem decodeRune_four (b0 b1 b2 b3 : Byte) (rest : GoString)
    (h0 : 0xF0 ≤ b0.val ∧ b0.val < 0xF8) (h1 : 0x80 ≤ b1.val ∧ b1.val ≤ 0xBF)
    (h2 : 0x80 ≤ b2.val ∧ b2.val ≤ 0xBF) (h3 : 0x80 ≤ b3.val ∧ b3.val ≤ 0xBF)
    (hr : 0xFFFF < b0.val % 8 * 262144 + b1.val % 64 * 4096 + b2.val % 64 * 64 + b3.val % 64)
    (hm : b0.val % 8 * 262144 + b1.val % 64 * 4096 + b2.val % 64 * 64 + b3.val % 64 ≤ MaxRune) :
    decodeRune b0 (b1 :: b2 :: b3 :: rest) =
      (b0.val % 8 * 262144 + b1.val % 64 * 4096 + b2.val % 64 * 64 + b3.val % 64, 4) := by
  have e : (b0.val &&& 0x07) <<< 18 ||| (b1.val &&& 0x3F) <<< 12 ||| (b2.val &&& 0x3F) <<< 6
      ||| (b3.val &&& 0x3F)
      = b0.val % 8 * 262144 + b1.val % 64 * 4096 + b2.val % 64 * 64 + b3.val % 64 := by
    rw [and_07, and_3F, and_3F, and_3F, Nat.shiftLeft_eq (b1.val % 64) 12,
      Nat.shiftLeft_eq (b2.val % 64) 6, shl_lor _ _ 18 (by omega)]
    have t1 : b0.val % 8 * 2 ^ 18 + b1.val % 64 * 2 ^ 12
        = (b0.val % 8 * 64 + b1.val % 64) <<< 12 := by
      rw [Nat.shiftLeft_eq]; omega
    rw [t1, shl_lor _ _ 12 (by omega)]
    have t2 : (b0.val % 8 * 64 + b1.val % 64) * 2 ^ 12 + b2.val % 64 * 2 ^ 6
        = ((b0.val % 8 * 64 + b1.val % 64) * 64 + b2.val % 64) <<< 6 := by
      rw [Nat.shiftLeft_eq]; omega
    rw [t2, shl_lor _ _ 6 (by omega)]
    omega
  have n0 : ¬ b0.val < 0x80 := by omega
  have n1 : ¬ (0xC0 ≤ b0.val ∧ b0.val < 0xE0) := by omega
  have n2 : ¬ (0xE0 ≤ b0.val ∧ b0.val < 0xF0) := by omega
  simp only [decodeRune, n0, n1, n2, if_false, h0, and_self, if_true, isCont, e, hr, hm, h1, h2,
    h3, decide_True, Bool.and_self]

end utf8

namespace utf8

theorem validRune_iff (r : Nat) : ValidRune r = true ↔ r ≤ 0x10FFFF ∧ ¬ (0xD800 ≤ r ∧ r ≤ 0xDFFF) := by
  simp only [ValidRune, MaxRune, Bool.and_eq_true, decide_eq_true_eq, Bool.not_eq_true,
    Bool.and_eq_false_imp, decide_eq_false_iff_not, Bool.not_eq_eq_eq_not, Bool.not_true]
  constructor
  · rintro ⟨h1, h2⟩
    exact ⟨h1, fun h => h2 h.1 h.2⟩
  · rintro ⟨h1, h2⟩
    exact ⟨h1, fun a b => h2 ⟨a, b⟩⟩

theorem encodeRune_one (r : Nat) (h : r ≤ 0x7F) : encodeRune r = [byteOf r] := by
  simp [encodeRune, h]

theorem encodeRune_two (r : Nat) (h1 : 0x7F < r) (h2 : r ≤ 0x7FF) :
    encodeRune r = [byteOf (0xC0 + r / 64), byteOf (0x80 + r % 64)] := by
  have n1 : ¬ r ≤ 0x7F := by omega
  simp only [encodeRune, n1, if_false, h2, if_true, byteOf_val, and_3F,
    Nat.shiftRight_eq_div_pow, Nat.reducePow]
  rw [lor_C0 _ (by omega), lor_80 _ (by omega)]
  simp only [byteOf, List.cons.injEq, Fin.mk.injEq, and_true]
  omega

end utf8

namespace utf8

theorem encodeRune_three (r : Nat) (h1 : 0x7FF < r) (h2 : r ≤ 0xFFFF)
    (hs : ¬ (0xD800 ≤ r ∧ r ≤ 0xDFFF)) :
    encodeRune r = [byteOf (0xE0 + r / 4096), byteOf (0x80 + r / 64 % 64), byteOf (0x80 + r % 64)] := by
  have n1 : ¬ r ≤ 0x7F := by omega
  have n2 : ¬ r ≤ 0x7FF := by omega
  have n3 : ¬ (MaxRune < r ∨ (0xD800 ≤ r ∧ r ≤ 0xDFFF)) := by simp only [MaxRune]; omega
  simp only [encodeRune, n1, n2, n3, if_false, h2, if_true, byteOf_val, and_3F,
    Nat.shiftRight_eq_div_pow, Nat.reducePow]
  rw [lor_E0 _ (by omega), lor_80 _ (by omega), lor_80 _ (by omega)]
  simp only [byteOf, List.cons.injEq, Fin.mk.injEq, and_true]
  omega

theorem encodeRune_four (r : Nat) (h1 : 0xFFFF < r) (h2 : r ≤ 0x10FFFF) :
    encodeRune r = [byteOf (0xF0 + r / 262144), byteOf (0x80 + r / 4096 % 64),
      byteOf (0x80 + r / 64 % 64), byteOf (0x80 + r % 64)] := by
  have n1 : ¬ r ≤ 0x7F := by omega
  have n2 : ¬ r ≤ 0x7FF := by omega
  have n3 : ¬ (MaxRune < r ∨ (0xD800 ≤ r ∧ r ≤ 0xDFFF)) := by simp only [MaxRune]; omega
  have n4 : ¬ r ≤ 0xFFFF := by omega
  simp only [encodeRune, n1, n2, n3, n4, if_false, byteOf_val, and_3F,
    Nat.shiftRight_eq_div_pow, Nat.reducePow]
  rw [lor_F0 _ (by omega), lor_80 _ (by omega), lor_80 _ (by omega), lor_80 _ (by omega)]
  simp only [byteOf, List.cons.injEq, Fin.mk.injEq, and_true]
  omega

/-- Decoding the encoding of a scalar value, whatever bytes follow, gives the
value back, with the width of the encoding. -/
theorem decodeRune_encodeRune (r : Nat) (hv : ValidRune r = true) (rest : GoString) :
    ∃ b0 bs, encodeRune r = b0 :: bs ∧ decodeRune b0 (bs ++ rest) = (r, bs.length + 1) := by
  rw [validRune_iff] at hv
  obtain ⟨hm, hs⟩ := hv
  by_cases c1 : r ≤ 0x7F
  · refine ⟨_, _, encodeRune_one r c1, ?_⟩
    rw [decodeRune_one _ _ (by rw [byteOf_val]; omega), byteOf_val]
    simp only [List.length_nil, Prod.mk.injEq, and_true]
    omega
  by_cases c2 : r ≤ 0x7FF
  · refine ⟨_, _, encodeRune_two r (by omega) c2, ?_⟩
    rw [List.cons_append, decodeRune_two _ _ _ (by rw [byteOf_val]; omega)
      (by rw [byteOf_val]; omega) (by rw [byteOf_val, byteOf_val]; omega)]
    simp only [byteOf_val, List.length_cons, List.length_nil, Prod.mk.injEq, and_true]
    omega
  by_cases c3 : r ≤ 0xFFFF
  · refine ⟨_, _, encodeRune_three r (by omega) c3 hs, ?_⟩
    rw [List.cons_append, List.cons_append, decodeRune_three _ _ _ _ (by rw [byteOf_val]; omega)
      (by rw [byteOf_val]; omega) (by rw [byteOf_val]; omega)
      (by rw [byteOf_val, byteOf_val, byteOf_val]; omega)
      (by rw [byteOf_val, byteOf_val, byteOf_val]; omega)]
    simp only [byteOf_val, List.length_cons, List.length_nil, Prod.mk.injEq, and_true]
    omega
  · refine ⟨_, _, encodeRune_four r (by omega) hm, ?_⟩
    rw [List.cons_append, List.cons_append, List.cons_append,
      decodeRune_four _ _ _ _ _ (by rw [byteOf_val]; omega)
      (by rw [byteOf_val]; omega) (by rw [byteOf_val]; omega) (by rw [byteOf_val]; omega)
      (by rw [byteOf_val, byteOf_val, byteOf_val, byteOf_val]; omega)
      (by rw [byteOf_val, byteOf_val, byteOf_val, byteOf_val]; simp only [MaxRune]; omega)]
    simp only [byteOf_val, List.length_cons, List.length_nil, Prod.mk.injEq, and_true]
    omega

end utf8

theorem runesFrom_skip (bs rest : GoString) : runesFrom bs.length (bs ++ rest) = runesFrom 0 rest := by
  induction bs with
  | nil => rfl
  | cons b bs ih => simpa [runesFrom] using ih

theorem runesOf_encodeRune_append (r : Nat) (hv : utf8.ValidRune r = true) (rest : GoString) :
    runesOf (utf8.encodeRune r ++ rest) = r :: runesOf rest := by
  obtain ⟨b0, bs, he, hd⟩ := utf8.decodeRune_encodeRune r hv rest
  rw [he]
  show runesFrom 0 (b0 :: (bs ++ rest)) = r :: runesFrom 0 rest
  rw [runesFrom, hd]
  simp only [Nat.add_sub_cancel]
  rw [runesFrom_skip]

/-- The round trip: the code points of the encoding of scalar values are those
values. -/
theorem runesOf_stringOfRunes (rs : List Nat) (hv : ∀ r ∈ rs, utf8.ValidRune r = true) :
    runesOf (stringOfRunes rs) = rs := by
  induction rs with
  | nil => rfl
  | cons r rs ih =>
    have h1 : stringOfRunes (r :: rs) = utf8.encodeRune r ++ stringOfRunes rs := by
      simp [stringOfRunes]
    rw [h1, runesOf_encodeRune_append r (hv r (List.mem_cons_self _ _)),
      ih (fun x hx => hv x (List.mem_cons_of_mem _ hx))]

namespace utf8

theorem validRune_runeError : ValidRune RuneError = true := by decide

theorem bits2 (a b : Nat) : (a &&& 0x1F) <<< 6 ||| (b &&& 0x3F) = a % 32 * 64 + b % 64 := by
  rw [and_1F, and_3F, shl_lor _ _ 6 (by omega)]
  omega

theorem bits3 (a b c : Nat) :
    (a &&& 0x0F) <<< 12 ||| (b &&& 0x3F) <<< 6 ||| (c &&& 0x3F)
      = a % 16 * 4096 + b % 64 * 64 + c % 64 := by
  rw [and_0F, and_3F, and_3F, Nat.shiftLeft_eq (b % 64) 6, shl_lor _ _ 12 (by omega)]
  have : a % 16 * 2 ^ 12 + b % 64 * 2 ^ 6 = (a % 16 * 64 + b % 64) <<< 6 := by
    rw [Nat.shiftLeft_eq]; omega
  rw [this, shl_lor _ _ 6 (by omega)]
  omega

theorem bits4_le (a b c d : Nat) :
    (a &&& 0x07) <<< 18 ||| (b &&& 0x3F) <<< 12 ||| (c &&& 0x3F) <<< 6 ||| (d &&& 0x3F)
      = a % 8 * 262144 + b % 64 * 4096 + c % 64 * 64 + d % 64 := by
  rw [and_07, and_3F, and_3F, and_3F, Nat.shiftLeft_eq (b % 64) 12,
    Nat.shiftLeft_eq (c % 64) 6, shl_lor _ _ 18 (by omega)]
  have t1 : a % 8 * 2 ^ 18 + b % 64 * 2 ^ 12 = (a % 8 * 64 + b % 64) <<< 12 := by
    rw [Nat.shiftLeft_eq]; omega
  rw [t1, shl_lor _ _ 12 (by omega)]
  have t2 : (a % 8 * 64 + b % 64) * 2 ^ 12 + c % 64 * 2 ^ 6
      = ((a % 8 * 64 + b % 64) * 64 + c % 64) <<< 6 := by
    rw [Nat.shiftLeft_eq]; omega
  rw [t2, shl_lor _ _ 6 (by omega)]
  omega

/-- Every rune the decoder returns is a Unicode scalar value. -/
theorem validRune_decodeRune (b0 : Byte) (rest : GoString) :
    ValidRune (decodeRune b0 rest).1 = true := by
  unfold decodeRune
  split_ifs with h1 h2 h3 h4
  · rw [validRune_iff]; dsimp only; omega
  · split
    · dsimp only
      split_ifs with h
      · rw [validRune_iff]
        simp only [bits2]
        omega
      · exact validRune_runeError
    · exact validRune_runeError
  · split
    · dsimp only
      split_ifs with h
      · rw [validRune_iff]
        simp only [bits3] at h ⊢
        omega
      · exact validRune_runeError
    · exact validRune_runeError
  · split
    · dsimp only
      split_ifs with h
      · rw [validRune_iff]
        simp only [bits4_le, MaxRune] at h ⊢
        omega
      · exact validRune_runeError
    · exact validRune_runeError
  · exact validRune_runeError

end utf8

theorem validRune_runesFrom (s : GoString) (k : Nat) : ∀ r ∈ runesFrom k s, utf8.ValidRune r = true := by
  induction s generalizing k with
  | nil => intro r hr; simp [runesFrom] at hr
  | cons b rest ih =>
    cases k with
    | zero =>
      intro r hr
      rw [runesFrom, List.mem_cons] at hr
      rcases hr with h | h
      · rw [h]; exact utf8.validRune_decodeRune b rest
      · exact ih _ r h
    | succ k =>
      intro r hr
      rw [runesFrom] at hr
      exact ih _ r hr

theorem validRune_runesOf (s : GoString) : ∀ r ∈ runesOf s, utf8.ValidRune r = true :=
  validRune_runesFrom s 0

/-! ## Theorems: `Reverse` -/

namespace StringUtils

theorem getElem?_mid (pre rest : List Nat) (a : Nat) : (pre ++ a :: rest)[pre.length]? = some a := by
  induction pre with
  | nil => simp
  | cons p pre ih => simpa using ih

theorem set_mid (pre rest : List Nat) (a b : Nat) :
    (pre ++ a :: rest).set pre.length b = pre ++ b :: rest := by
  induction pre with
  | nil => rfl
  | cons p pre ih => simp [ih]

/-- The swap loop started on the two ends of the segment `xs` of the slice
`pre ++ xs ++ post` ends, within `len(xs)/2 + 1` evaluations of its condition
and without leaving the slice, with the segment reversed. -/
theorem swapLoop_segment (fuel : Nat) (pre xs post : List Nat) (hf : xs.length / 2 < fuel) :
    swapLoop fuel (pre ++ xs ++ post) (pre.length : Int) ((pre.length : Int) + (xs.length : Int) - 1)
      = some (pre ++ xs.reverse ++ post) := by
  induction fuel generalizing pre xs post with
  | zero => omega
  | succ fuel ih =>
    rcases xs with _ | ⟨a, t⟩
    · have h : ¬ ((pre.length : Int) < (pre.length : Int) + ((([] : List Nat).length : Nat) : Int) - 1) := by
        simp
      simp only [swapLoop, h, if_false, List.reverse_nil]
    · rcases List.eq_nil_or_concat t with ht | ⟨mid, b, ht⟩
      · subst ht
        have h : ¬ ((pre.length : Int) < (pre.length : Int) + ((([a] : List Nat).length : Nat) : Int) - 1) := by
          simp
        simp only [swapLoop, h, if_false, List.reverse_singleton]
      · rw [List.concat_eq_append] at ht
        subst ht
        have hj : (pre.length : Int) + (((a :: (mid ++ [b])).length : Nat) : Int) - 1
            = (((pre ++ a :: mid).length : Nat) : Int) := by
          simp only [List.length_cons, List.length_append, List.length_nil]
          push_cast
          omega
        have hlt : ((pre.length : Nat) : Int) < (((pre ++ a :: mid).length : Nat) : Int) := by
          simp only [List.length_cons, List.length_append]
          push_cast
          omega
        have e1 : pre ++ a :: (mid ++ [b]) ++ post = pre ++ a :: (mid ++ b :: post) := by simp
        have e2 : pre ++ a :: (mid ++ b :: post) = (pre ++ a :: mid) ++ b :: post := by simp
        have g1 : runeAt (pre ++ a :: (mid ++ [b]) ++ post) (pre.length : Int) = some a := by
          rw [e1]
          simp only [runeAt, Int.natCast_nonneg, if_true, Int.toNat_ofNat]
          exact getElem?_mid pre _ a
        have g2 : runeAt (pre ++ a :: (mid ++ [b]) ++ post) (((pre ++ a :: mid).length : Nat) : Int)
            = some b := by
          rw [e1, e2]
          simp only [runeAt, Int.natCast_nonneg, if_true, Int.toNat_ofNat]
          exact getElem?_mid (pre ++ a :: mid) post b
        have s1 : ((pre ++ a :: (mid ++ [b]) ++ post).set pre.length b).set (pre ++ a :: mid).length a
            = (pre ++ [b]) ++ mid ++ ([a] ++ post) := by
          rw [e1, set_mid]
          have e3 : pre ++ b :: (mid ++ b :: post) = (pre ++ b :: mid) ++ b :: post := by simp
          have e4 : (pre ++ a :: mid).length = (pre ++ b :: mid).length := by simp
          rw [e3, e4, set_mid]
          simp
        rw [hj, swapLoop]
        simp only [hlt, if_true, g1, g2, Int.toNat_ofNat, s1]
        have hi : ((pre.length : Nat) : Int) + 1 = (((pre ++ [b]).length : Nat) : Int) := by
          simp
        have hj2 : (((pre ++ a :: mid).length : Nat) : Int) - 1
            = (((pre ++ [b]).length : Nat) : Int) + ((mid.length : Nat) : Int) - 1 := by
          simp only [List.length_cons, List.length_append, List.length_nil]
          push_cast
          omega
        rw [hi, hj2, ih (pre ++ [b]) mid ([a] ++ post)
          (by simp only [List.length_cons, List.length_append, List.length_nil] at hf; omega)]
        simp

/-- The loop of `Reverse` on a whole slice: it returns the reversed slice. -/
theorem swapLoop_reverse (runes : List Nat) :
    swapLoop (runes.length + 1) runes 0 ((runes.length : Int) - 1) = some runes.reverse := by
  have h := swapLoop_segment (runes.length + 1) [] runes [] (by omega)
  simpa using h

theorem reverse_eq (input : GoString) :
    Reverse input = some (stringOfRunes (runesOf input).reverse) := by
  simp only [Reverse, swapLoop_reverse, Option.map_some']

end StringUtils

/-! ## Theorems: ASCII text and `ToTitle` -/

theorem runesFrom_ascii (s : GoString) (h : ∀ b ∈ s, b.val < 0x80) :
    runesFrom 0 s = s.map (fun b => b.val) := by
  induction s with
  | nil => rfl
  | cons b rest ih =>
    have hb : b.val < 0x80 := h b (List.mem_cons_self _ _)
    rw [runesFrom, utf8.decodeRune_one b rest hb]
    simp only [Nat.sub_self, List.map_cons]
    rw [ih (fun x hx => h x (List.mem_cons_of_mem _ hx))]

theorem runesOf_ascii (s : GoString) (h : ∀ b ∈ s, b.val < 0x80) :
    runesOf s = s.map (fun b => b.val) :=
  runesFrom_ascii s h

theorem stringOfRunes_ascii (l : List Nat) (h : ∀ r ∈ l, r ≤ 0x7F) :
    stringOfRunes l = l.map byteOf := by
  induction l with
  | nil => rfl
  | cons r rest ih =>
    have e : stringOfRunes (r :: rest) = utf8.encodeRune r ++ stringOfRunes rest := by
      simp [stringOfRunes]
    rw [e, utf8.encodeRune_one r (h r (List.mem_cons_self _ _)),
      ih (fun x hx => h x (List.mem_cons_of_mem _ hx))]
    rfl

namespace unicode

theorem toLower_le (U : Tables) (r : Nat) (h : r ≤ 0x7F) : ToLower U r ≤ 0x7F := by
  simp only [ToLower, h, if_true, Char.reduceToNat]
  split_ifs <;> omega

theorem toTitle_le (U : Tables) (r : Nat) (h : r ≤ 0x7F) : ToTitle U r ≤ 0x7F := by
  simp only [ToTitle, h, if_true, Char.reduceToNat]
  split_ifs <;> omega

theorem toLower_toTitle (U : Tables) (r : Nat) (h : r ≤ 0x7F) :
    ToLower U (ToTitle U r) = ToLower U r := by
  have h2 := toTitle_le U r h
  simp only [ToLower, h2, h, if_true]
  simp only [ToTitle, h, if_true, Char.reduceToNat]
  split_ifs <;> omega

theorem toLower_toLower (U : Tables) (r : Nat) (h : r ≤ 0x7F) :
    ToLower U (ToLower U r) = ToLower U r := by
  have h2 := toLower_le U r h
  simp only [ToLower, h2, h, if_true, Char.reduceToNat]
  split_ifs <;> omega

end unicode

namespace strings

/-- On a string that is all ASCII `strings.ToLower` lower-cases byte by byte. -/
theorem toLower_ascii (U : unicode.Tables) (s : GoString) (h : ∀ b ∈ s, b.val < 0x80) :
    ToLower U s = s.map (fun b => byteOf (unicode.ToLower U b.val)) := by
  have hall : (s.all fun c => decide (c.val < 0x80)) = true := by
    simpa [List.all_eq_true] using h
  have hmap : ∀ b ∈ s, (if 'A'.toNat ≤ b.val ∧ b.val ≤ 'Z'.toNat
      then byteOf (b.val + ('a'.toNat - 'A'.toNat)) else b) = byteOf (unicode.ToLower U b.val) := by
    intro b hb
    have hb2 : b.val ≤ 0x7F := by have := h b hb; omega
    simp only [unicode.ToLower, hb2, if_true]
    split_ifs
    · rfl
    · apply Fin.ext
      rw [utf8.byteOf_val]
      omega
  simp only [ToLower, hall, if_true]
  split_ifs with hany
  · exact List.map_congr_left hmap
  · rw [← List.map_congr_left hmap]
    simp only [List.any_eq_true, decide_eq_true_eq, not_exists, not_and] at hany
    conv_lhs => rw [← List.map_id s]
    apply List.map_congr_left
    intro b hb
    have := hany b hb
    simp only [id]
    split_ifs with hc
    · exact absurd hc (by simpa using this)
    · rfl

theorem titleRunes_le (U : unicode.Tables) (l : List Nat) (prev : Nat) (h : ∀ r ∈ l, r ≤ 0x7F) :
    ∀ r ∈ titleRunes U prev l, r ≤ 0x7F := by
  induction l generalizing prev with
  | nil => intro r hr; simp [titleRunes] at hr
  | cons a rest ih =>
    intro r hr
    rw [titleRunes, List.mem_cons] at hr
    have ha : a ≤ 0x7F := h a (List.mem_cons_self _ _)
    rcases hr with hr | hr
    · rw [hr]
      split_ifs
      · exact unicode.toTitle_le U a ha
      · exact ha
    · exact ih a (fun x hx => h x (List.mem_cons_of_mem _ hx)) r hr

theorem map_toLower_titleRunes (U : unicode.Tables) (l : List Nat) (prev : Nat)
    (h : ∀ r ∈ l, r ≤ 0x7F) :
    (titleRunes U prev l).map (unicode.ToLower U) = l.map (unicode.ToLower U) := by
  induction l generalizing prev with
  | nil => rfl
  | cons a rest ih =>
    have ha : a ≤ 0x7F := h a (List.mem_cons_self _ _)
    rw [titleRunes, List.map_cons, List.map_cons, ih a (fun x hx => h x (List.mem_cons_of_mem _ hx))]
    congr 1
    split_ifs
    · exact unicode.toLower_toTitle U a ha
    · rfl

end strings

namespace StringUtils

/-- On a string that is all ASCII `ToTitle` works byte by byte. -/
theorem toTitle_ascii (U : unicode.Tables) (s : GoString) (h : ∀ b ∈ s, b.val < 0x80) :
    ToTitle U s =
      (strings.titleRunes U ' '.toNat (s.map fun b => unicode.ToLower U b.val)).map byteOf := by
  have hl : ∀ b ∈ s.map (fun b => byteOf (unicode.ToLower U b.val)), b.val < 0x80 := by
    intro b hb
    rw [List.mem_map] at hb
    obtain ⟨c, hc, rfl⟩ := hb
    have h1 := unicode.toLower_le U c.val (by have := h c hc; omega)
    rw [utf8.byteOf_val]
    omega
  have hv : (s.map (fun b => byteOf (unicode.ToLower U b.val))).map (fun b => b.val)
      = s.map (fun b => unicode.ToLower U b.val) := by
    rw [List.map_map]
    apply List.map_congr_left
    intro c hc
    have h1 := unicode.toLower_le U c.val (by have := h c hc; omega)
    simp only [Function.comp_apply, utf8.byteOf_val]
    omega
  rw [ToTitle, strings.toLower_ascii U s h, strings.Title, runesOf_ascii _ hl, hv]
  apply stringOfRunes_ascii
  apply strings.titleRunes_le
  intro r hr
  rw [List.mem_map] at hr
  obtain ⟨c, hc, rfl⟩ := hr
  exact unicode.toLower_le U c.val (by have := h c hc; omega)

/-- On ASCII text `ToTitle` is idempotent. -/
theorem toTitle_idem_ascii (U : unicode.Tables) (s : GoString) (h : ∀ b ∈ s, b.val < 0x80) :
    ToTitle U (ToTitle U s) = ToTitle U s := by
  have hl : ∀ r ∈ s.map (fun b => unicode.ToLower U b.val), r ≤ 0x7F := by
    intro r hr
    rw [List.mem_map] at hr
    obtain ⟨c, hc, rfl⟩ := hr
    exact unicode.toLower_le U c.val (by have := h c hc; omega)
  have ht := strings.titleRunes_le U _ ' '.toNat hl
  have h2 : ∀ b ∈ (strings.titleRunes U ' '.toNat (s.map fun b => unicode.ToLower U b.val)).map byteOf,
      b.val < 0x80 := by
    intro b hb
    rw [List.mem_map] at hb
    obtain ⟨r, hr, rfl⟩ := hb
    have := ht r hr
    rw [utf8.byteOf_val]
    omega
  rw [toTitle_ascii U s h, toTitle_ascii U _ h2]
  congr 2
  rw [List.map_map]
  have e : (strings.titleRunes U ' '.toNat (s.map fun b => unicode.ToLower U b.val)).map
      ((fun b : Byte => unicode.ToLower U b.val) ∘ byteOf)
      = (strings.titleRunes U ' '.toNat (s.map fun b => unicode.ToLower U b.val)).map
        (unicode.ToLower U) := by
    apply List.map_congr_left
    intro r hr
    have := ht r hr
    simp only [Function.comp_apply, utf8.byteOf_val]
    congr 1
    omega
  rw [e, strings.map_toLower_titleRunes U _ _ hl, List.map_map]
  apply List.map_congr_left
  intro c hc
  exact unicode.toLower_toLower U c.val (by have := h c hc; omega)

end StringUtils

namespace strings

theorem runesOf_toLower_ascii (U : unicode.Tables) (s : GoString) (h : ∀ b ∈ s, b.val < 0x80) :
    runesOf (ToLower U s) = s.map (fun b => unicode.ToLower U b.val) := by
  have hl : ∀ b ∈ s.map (fun b => byteOf (unicode.ToLower U b.val)), b.val < 0x80 := by
    intro b hb
    rw [List.mem_map] at hb
    obtain ⟨c, hc, rfl⟩ := hb
    have h1 := unicode.toLower_le U c.val (by have := h c hc; omega)
    rw [utf8.byteOf_val]
    omega
  rw [toLower_ascii U s h, runesOf_ascii _ hl, List.map_map]
  apply List.map_congr_left
  intro c hc
  have h1 := unicode.toLower_le U c.val (by have := h c hc; omega)
  simp only [Function.comp_apply, utf8.byteOf_val]
  omega

end strings

namespace StringUtils

theorem wordOrSpace_lt (b : Byte) (h : isWordOrSpaceByte b = true) : b.val < 0x80 := by
  simp only [isWordOrSpaceByte, isASCIILetter, Char.reduceToNat, Bool.or_eq_true,
    Bool.and_eq_true, decide_eq_true_eq] at h
  omega

theorem toLower_eq_lowerRune (U : unicode.Tables) (r : Nat) :
    unicode.ToLower U r = lowerRune U r := by
  simp only [unicode.ToLower, lowerRune, Char.reduceToNat]
  split_ifs <;> first | rfl | omega

theorem toTitle_eq_upperRune (U : unicode.Tables) (r : Nat) :
    unicode.ToTitle U r = upperRune U r := by
  simp only [unicode.ToTitle, upperRune, Char.reduceToNat]
  split_ifs <;> first | rfl | omega

theorem isSeparator_eq_isSeparatorRune (U : unicode.Tables) (r : Nat) :
    strings.isSeparator U r = isSeparatorRune U r := by
  by_cases h : r ≤ 0x7F
  · have h2 : r < 0x80 := by omega
    simp only [strings.isSeparator, isSeparatorRune, isWordRune, h, h2, if_true, Char.reduceToNat]
    split_ifs with h1 h3 h4 h5
    · simp [h1]
    · simp [h3]
    · simp [h4]
    · simp [h5]
    · have e1 : ¬ (97 ≤ r ∧ r ≤ 122) := h3
      have e2 : ¬ (65 ≤ r ∧ r ≤ 90) := h4
      have e3 : ¬ (48 ≤ r ∧ r ≤ 57) := h1
      simp [e1, e2, e3, h5]
  · have h2 : ¬ r < 0x80 := by omega
    simp only [strings.isSeparator, isSeparatorRune, h, h2, if_false, unicode.IsSpace, isSpaceRune]
    by_cases hl : U.isLetter r = true
    · simp [hl]
    · by_cases hd : U.isDigit r = true
      · simp [hd]
      · have hl2 : U.isLetter r = false := by simpa using hl
        have hd2 : U.isDigit r = false := by simpa using hd
        simp only [hl2, hd2, Bool.or_self, Bool.false_eq_true, if_false, Bool.not_false,
          Bool.and_true]
        split_ifs with h3
        · have e1 : ¬ (9 ≤ r ∧ r ≤ 13) := by omega
          have e2 : ¬ r = 32 := by omega
          have e3 : ¬ (255 < r) := by omega
          have e4 : ¬ r = 9 := by omega
          have e5 : ¬ r = 10 := by omega
          have e6 : ¬ r = 11 := by omega
          have e7 : ¬ r = 12 := by omega
          have e8 : ¬ r = 13 := by omega
          simp [e1, e2, e3, e4, e5, e6, e7, e8]
        · have e1 : ¬ (9 ≤ r ∧ r ≤ 13) := by omega
          have e2 : ¬ r = 32 := by omega
          have e3 : ¬ r = 133 := by omega
          have e4 : ¬ r = 160 := by omega
          have e5 : 255 < r := by omega
          simp [e1, e2, e3, e4, e5]

theorem titleRunes_eq_capitalizeAfter (U : unicode.Tables) (l : List Nat) (prev : Nat) :
    strings.titleRunes U prev l =
      capitalizeAfter (isSeparatorRune U) (upperRune U) (strings.isSeparator U prev) l := by
  induction l generalizing prev with
  | nil => rfl
  | cons a rest ih =>
    rw [strings.titleRunes, capitalizeAfter, ih a, toTitle_eq_upperRune,
      isSeparator_eq_isSeparatorRune U a]

theorem capitalizeAfter_congr (sep1 sep2 : Nat → Bool) (up : Nat → Nat) (l : List Nat)
    (atStart : Bool) (h : ∀ r ∈ l, sep1 r = sep2 r) :
    capitalizeAfter sep1 up atStart l = capitalizeAfter sep2 up atStart l := by
  induction l generalizing atStart with
  | nil => rfl
  | cons a rest ih =>
    rw [capitalizeAfter, capitalizeAfter, h a (List.mem_cons_self _ _),
      ih _ (fun x hx => h x (List.mem_cons_of_mem _ hx))]

/-- The library function `strings.ToLower` puts the whole text in lower case,
on its ASCII path and on its general path alike. -/
theorem toLower_eq_lowerCased (U : unicode.Tables) (s : GoString) :
    strings.ToLower U s = lowerCased U s := by
  by_cases h : ∀ b ∈ s, b.val < 0x80
  · have hl : ∀ r ∈ (s.map fun b => b.val).map (lowerRune U), r ≤ 0x7F := by
      intro r hr
      simp only [List.map_map, List.mem_map, Function.comp_apply] at hr
      obtain ⟨b, hb, rfl⟩ := hr
      rw [← toLower_eq_lowerRune]
      exact unicode.toLower_le U b.val (by have := h b hb; omega)
    rw [strings.toLower_ascii U s h, lowerCased, runesOf_ascii s h, stringOfRunes_ascii _ hl,
      List.map_map, List.map_map]
    apply List.map_congr_left
    intro b _
    simp only [Function.comp_apply, toLower_eq_lowerRune]
  · have hall : (s.all fun c => decide (c.val < 0x80)) = false := by
      rw [Bool.eq_false_iff]
      intro hc
      apply h
      simpa [List.all_eq_true] using hc
    have hf : unicode.ToLower U = lowerRune U := funext (toLower_eq_lowerRune U)
    simp only [strings.ToLower, hall, Bool.false_eq_true, if_false, strings.Map, lowerCased, hf]

theorem wordOrSpace_separator (U : unicode.Tables) (b : Byte) (h : isWordOrSpaceByte b = true) :
    isSeparatorRune U (lowerRune U b.val) = isSpaceRune U (lowerRune U b.val) := by
  have hb := wordOrSpace_lt b h
  simp only [isWordOrSpaceByte, isASCIILetter, Char.reduceToNat, Bool.or_eq_true,
    Bool.and_eq_true, decide_eq_true_eq] at h
  have hr : lowerRune U b.val < 0x80 := by
    simp only [lowerRune, Char.reduceToNat]
    split_ifs <;> omega
  have hcase : (isWordRune (lowerRune U b.val) = true ∧ isSpaceRune U (lowerRune U b.val) = false) ∨
      (isWordRune (lowerRune U b.val) = false ∧ isSpaceRune U (lowerRune U b.val) = true) := by
    simp only [isWordRune, isSpaceRune, lowerRune, Char.reduceToNat]
    split_ifs <;> simp <;> omega
  simp only [isSeparatorRune, hr, if_true]
  rcases hcase with ⟨h1, h2⟩ | ⟨h1, h2⟩
  · rw [h1, h2]; rfl
  · rw [h1, h2]; rfl

end StringUtils

namespace StringUtils

/-- Claim C5, refuted as stated: on the one-byte string `"\xff"`, which is not
valid UTF-8, `Reverse` returns the three bytes of U+FFFD, and so does
`Reverse` of that: `Reverse(Reverse(s))` is not `s`. -/
theorem reverse_reverse_invalid_utf8 :
    Reverse [(0xFF : Byte)] = some [0xEF, 0xBF, 0xBD] ∧
    (Reverse [(0xFF : Byte)]).bind Reverse = some [0xEF, 0xBF, 0xBD] ∧
    (Reverse [(0xFF : Byte)]).bind Reverse ≠ some [0xFF] := by
  decide

/-- Claim C5, amended: for every string `s` that is valid UTF-8, that is the
encoding of a sequence `rs` of Unicode scalar values, `Reverse` returns and
`Reverse(Reverse(s)) == s`. -/
theorem reverse_reverse_of_valid_utf8 (s : GoString) (rs : List Nat)
    (hs : s = stringOfRunes rs) (hv : ∀ r ∈ rs, utf8.ValidRune r = true) :
    (Reverse s).bind Reverse = some s := by
  subst hs
  have hr : ∀ r ∈ rs.reverse, utf8.ValidRune r = true := fun r h => hv r (List.mem_reverse.1 h)
  rw [reverse_eq, Option.some_bind, reverse_eq, runesOf_stringOfRunes rs hv,
    runesOf_stringOfRunes rs.reverse hr, List.reverse_reverse]

/-- Witness of claim C5, amended: the string "hé€\U0001F600", with
encodings of one to four bytes. -/
theorem reverse_reverse_of_valid_utf8_witness :
    (goStr "hé€😀" = stringOfRunes [0x68, 0xE9, 0x20AC, 0x1F600] ∧
      ∀ r ∈ [0x68, 0xE9, 0x20AC, 0x1F600], utf8.ValidRune r = true) ∧
    (Reverse (goStr "hé€😀")).bind Reverse = some (goStr "hé€😀") :=
  ⟨⟨by decide, by decide⟩,
    reverse_reverse_of_valid_utf8 (goStr "hé€😀") [0x68, 0xE9, 0x20AC, 0x1F600] (by decide)
      (by decide)⟩

/-- Claim C6: for every input string the swap loop of `Reverse` ends and
returns the string that encodes the code points of the input in reverse
order, and the code points of the result are those of the input reversed;
`Reverse("") == ""` and `Reverse("hello") == "olleh"`. -/
theorem reverse_reverses_code_points (input : GoString) :
    Reverse input = some (stringOfRunes (runesOf input).reverse) ∧
    (Reverse input).map runesOf = some (runesOf input).reverse ∧
    Reverse (goStr "") = some (goStr "") ∧
    Reverse (goStr "hello") = some (goStr "olleh") := by
  refine ⟨reverse_eq input, ?_, by decide, by decide⟩
  rw [reverse_eq, Option.map_some', runesOf_stringOfRunes]
  intro r hr
  exact validRune_runesOf input r (List.mem_reverse.1 hr)

/-- Claim C7, refuted as stated: `ToTitle("a-b")` is `"A-B"`, while lower-casing
and then upper-casing the first letter of every white-space-delimited word
gives `"A-b"`; so `ToTitle` is not that function. -/
theorem toTitle_capitalizes_after_hyphen :
    ToTitle unicode.noTables (goStr "a-b") = goStr "A-B" ∧
    titleByWhitespace unicode.noTables (goStr "a-b") = goStr "A-b" ∧
    ¬ (∀ (U : unicode.Tables) (s : GoString), ToTitle U s = titleByWhitespace U s) := by
  refine ⟨by decide, by decide, ?_⟩
  intro h
  have h2 := h unicode.noTables (goStr "a-b")
  revert h2
  decide

/-- Claim C7, amended: for every input string `ToTitle` is lower-casing all of
it and then upper-casing the first letter of every word, where a word starts
at the start of the string and after every separator: in ASCII every
character but letters, digits and the underscore, so also after `-` and the
apostrophe, and beyond ASCII white space. On a string of ASCII letters,
digits, underscores and white space that is the white-space-delimited
title. `ToTitle("hello world") == "Hello World"`, `ToTitle("a-b") == "A-B"`
and `ToTitle("DON'T stop") == "Don'T Stop"`. -/
theorem toTitle_eq_titleBySeparators (U : unicode.Tables) (s : GoString) :
    ToTitle U s = titleBySeparators U s ∧
    ((∀ b ∈ s, isWordOrSpaceByte b = true) → ToTitle U s = titleByWhitespace U s) ∧
    ToTitle U (goStr "hello world") = goStr "Hello World" ∧
    ToTitle U (goStr "a-b") = goStr "A-B" ∧
    ToTitle U (goStr "DON'T stop") = goStr "Don'T Stop" := by
  have hsep : strings.isSeparator U ' '.toNat = true := by
    simp [strings.isSeparator]
  have h1 : ToTitle U s = titleBySeparators U s := by
    rw [ToTitle, strings.Title, toLower_eq_lowerCased, titleRunes_eq_capitalizeAfter, hsep,
      titleBySeparators]
  refine ⟨h1, ?_, rfl, rfl, rfl⟩
  intro h
  have ha : ∀ b ∈ s, b.val < 0x80 := fun b hb => wordOrSpace_lt b (h b hb)
  have hr : runesOf (lowerCased U s) = s.map (fun b => lowerRune U b.val) := by
    rw [← toLower_eq_lowerCased, strings.runesOf_toLower_ascii U s ha]
    apply List.map_congr_left
    intro b _
    exact toLower_eq_lowerRune U b.val
  rw [h1, titleBySeparators, titleByWhitespace, hr]
  congr 1
  apply capitalizeAfter_congr
  intro r hr2
  rw [List.mem_map] at hr2
  obtain ⟨b, hb, rfl⟩ := hr2
  exact wordOrSpace_separator U b (h b hb)

/-- Witness of claim C7, amended: a string of letters, a digit, an underscore and
spaces. -/
theorem toTitle_eq_titleBySeparators_witness :
    (∀ b ∈ goStr "go_1 is FUN", isWordOrSpaceByte b = true) ∧
    ToTitle unicode.noTables (goStr "go_1 is FUN") =
      titleByWhitespace unicode.noTables (goStr "go_1 is FUN") :=
  ⟨by decide, (toTitle_eq_titleBySeparators unicode.noTables (goStr "go_1 is FUN")).2.1 (by decide)⟩

/-- Claim C8: for every string of ASCII letters and space characters
`ToTitle(ToTitle(s)) == ToTitle(s)`. -/
theorem toTitle_idempotent_letters_spaces (U : unicode.Tables) (s : GoString)
    (h : ∀ b ∈ s, isASCIILetter b = true ∨ b.val = ' '.toNat) :
    ToTitle U (ToTitle U s) = ToTitle U s := by
  apply toTitle_idem_ascii
  intro b hb
  rcases h b hb with h1 | h1
  · simp only [isASCIILetter, Char.reduceToNat, Bool.or_eq_true, Bool.and_eq_true,
      decide_eq_true_eq] at h1
    omega
  · rw [h1]; decide

/-- Witness of claim C8: the string "hELLO wide World". -/
theorem toTitle_idempotent_letters_spaces_witness :
    (∀ b ∈ goStr "hELLO wide World", isASCIILetter b = true ∨ b.val = ' '.toNat) ∧
    ToTitle unicode.noTables (ToTitle unicode.noTables (goStr "hELLO wide World")) =
      ToTitle unicode.noTables (goStr "hELLO wide World") :=
  ⟨by decide, toTitle_idempotent_letters_spaces unicode.noTables (goStr "hELLO wide World")
    (by decide)⟩

end StringUtils

/-! ## Theorems: the event log, continued -/

namespace EventLog

variable {δ : Type}

theorem collectByName_nil_of_absent (name : GoString) (l : List (Event δ))
    (h : ∀ e ∈ l, e.Name ≠ name) : collectByName name l [] = [] := by
  rw [collectByName_eq, List.nil_append, List.filter_eq_nil_iff]
  intro e he
  simpa using h e he

/-- The scan of `GetEvent` over events whose IDs count up from `c`: it stops
at the position of `id`, if `id` is one of them. -/
theorem scanForID_counting (id c : Int) (l : List (Event δ)) (k : Nat)
    (h : l.map Event.ID = (List.range l.length).map (fun i : Nat => (i : Int) + c)) :
    scanForID id l k =
      if c ≤ id ∧ id < c + (l.length : Int) then some (k + (id - c).toNat) else none := by
  induction l generalizing c k with
  | nil =>
    have hn : ¬ (c ≤ id ∧ id < c + ((([] : List (Event δ)).length : Nat) : Int)) := by
      simp only [List.length_nil, Nat.cast_zero, add_zero]
      omega
    rw [scanForID, if_neg hn]
  | cons e rest ih =>
    simp only [List.map_cons, List.length_cons, List.range_succ_eq_map, List.map_map,
      List.cons.injEq, Nat.cast_zero, zero_add] at h
    obtain ⟨he, hrest⟩ := h
    have hrest2 : rest.map Event.ID
        = (List.range rest.length).map (fun i : Nat => (i : Int) + (c + 1)) := by
      rw [hrest]
      apply List.map_congr_left
      intro i _
      simp only [Function.comp_apply, Nat.succ_eq_add_one, Nat.cast_add, Nat.cast_one]
      omega
    rw [scanForID, ih (c + 1) (k + 1) hrest2, he]
    simp only [List.length_cons, Nat.cast_add, Nat.cast_one]
    by_cases h1 : c = id
    · subst h1
      have hp : c ≤ c ∧ c < c + ((rest.length : Int) + 1) := by omega
      simp only [if_true, if_pos hp, sub_self, Int.toNat_zero, add_zero]
    · by_cases h2 : c + 1 ≤ id ∧ id < c + 1 + (rest.length : Int)
      · have hp : c ≤ id ∧ id < c + ((rest.length : Int) + 1) := by omega
        rw [if_neg h1, if_pos h2, if_pos hp]
        congr 1
        omega
      · have hp : ¬ (c ≤ id ∧ id < c + ((rest.length : Int) + 1)) := by omega
        rw [if_neg h1, if_neg h2, if_neg hp]

theorem getEventSlot_reachable (calls : List (Call δ)) (id : Int) :
    GetEventSlot (runCalls (NewEventLogger : EventLogger δ) calls) id =
      if 1 ≤ id ∧ id ≤ GetEventCount (runCalls (NewEventLogger : EventLogger δ) calls)
      then some (id - 1).toNat else none := by
  have hw := (wellNumbered_runCalls calls).1
  rw [GetEventSlot, scanForID_counting id 1 _ 0 hw, GetEventCount]
  by_cases h : 1 ≤ id ∧ id ≤ ((runCalls (NewEventLogger : EventLogger δ) calls).events.length : Int)
  · have hp : 1 ≤ id ∧ id < 1 + ((runCalls (NewEventLogger : EventLogger δ) calls).events.length : Int) := by
      omega
    rw [if_pos h, if_pos hp, Nat.zero_add]
  · have hp : ¬ (1 ≤ id ∧ id < 1 + ((runCalls (NewEventLogger : EventLogger δ) calls).events.length : Int)) := by
      omega
    rw [if_neg h, if_neg hp]

theorem run_bind (m : Body δ α) (f : α → Body δ β) (el : EventLogger δ) :
    (m >>= f) el = match m el with
      | none => none
      | some (a, el') => f a el' := rfl

theorem intSucc_eq (bits : Nat) (x : Int) (h1 : minInt bits ≤ x) (h2 : x < maxInt bits) :
    intSucc bits x = x + 1 := by
  unfold intSucc
  unfold minInt at h1
  unfold maxInt at h2
  have hM : (0 : Int) < 2 ^ (bits - 1) := by positivity
  generalize (2 : Int) ^ (bits - 1) = M at *
  rw [Int.emod_eq_of_lt (by omega) (by omega)]
  omega

theorem intSucc_maxInt (bits : Nat) : intSucc bits (maxInt bits) = minInt bits := by
  unfold intSucc maxInt minInt
  have hM : (0 : Int) < 2 ^ (bits - 1) := by positivity
  generalize (2 : Int) ^ (bits - 1) = M at *
  have e : M - 1 + 1 + M = 2 * M := by omega
  rw [e, Int.emod_self]
  omega

theorem logEventBody_run (bits : Nat) (now : Time) (name : GoString) (data : δ)
    (el : EventLogger δ) :
    LogEventBody bits now name data el =
      some ({ ID := el.nextID, Name := name, Timestamp := now, Data := data },
        { events := el.events ++ [{ ID := el.nextID, Name := name, Timestamp := now, Data := data }],
          nextID := intSucc bits el.nextID }) := rfl

/-- Below the largest `int` the body of `LogEvent` returns the event and
leaves the logger that the function `LogEvent` gives. -/
theorem logEventBody_eq_logEvent (bits : Nat) (now : Time) (name : GoString) (data : δ)
    (el : EventLogger δ) (h1 : minInt bits ≤ el.nextID) (h2 : el.nextID < maxInt bits) :
    LogEventBody bits now name data el =
      some ((LogEvent el now name data).2, (LogEvent el now name data).1) := by
  rw [logEventBody_run, intSucc_eq bits el.nextID h1 h2]
  rfl

theorem scanBody_run (id : Int) (el : EventLogger δ) (n i : Nat)
    (h : i + n = el.events.length) :
    scanBody id i n el = some (scanForID id (el.events.drop i) i, el) := by
  induction n generalizing i with
  | zero =>
    have hd : el.events.drop i = [] := by
      apply List.drop_eq_nil_of_le; omega
    rw [hd]
    rfl
  | succ n ih =>
    have hi : i < el.events.length := by omega
    have hd : el.events.drop i = el.events[i] :: el.events.drop (i + 1) := by
      rw [List.drop_eq_getElem_cons hi]
    rw [hd, scanForID, scanBody, run_bind]
    simp only [eventAt, List.getElem?_eq_getElem hi]
    split_ifs with hc
    · rfl
    · exact ih (i + 1) (by omega)

/-- The body of `GetEvent` never panics, returns the slot that `GetEventSlot`
gives and leaves the receiver as it was. -/
theorem getEventBody_run (id : Int) (el : EventLogger δ) :
    GetEventBody id el = some (GetEventSlot el id, el) := by
  have h := scanBody_run id el el.events.length 0 (by omega)
  rw [List.drop_zero] at h
  exact h

theorem collectBody_run (name : GoString) (el : EventLogger δ) (n i : Nat)
    (result : List (Event δ)) (h : i + n = el.events.length) :
    collectBody name i n result el = some (collectByName name (el.events.drop i) result, el) := by
  induction n generalizing i result with
  | zero =>
    have hd : el.events.drop i = [] := by
      apply List.drop_eq_nil_of_le; omega
    rw [hd]
    rfl
  | succ n ih =>
    have hi : i < el.events.length := by omega
    have hd : el.events.drop i = el.events[i] :: el.events.drop (i + 1) := by
      rw [List.drop_eq_getElem_cons hi]
    rw [hd, collectByName, collectBody, run_bind]
    simp only [eventAt, List.getElem?_eq_getElem hi]
    split_ifs with hc
    · exact ih (i + 1) _ (by omega)
    · exact ih (i + 1) _ (by omega)

/-- The body of `GetEventsByName` never panics, returns what `GetEventsByName`
gives and leaves the receiver as it was. -/
theorem getEventsByNameBody_run (name : GoString) (el : EventLogger δ) :
    GetEventsByNameBody name el = some (GetEventsByName el name, el) := by
  have h := collectBody_run name el el.events.length 0 [] (by omega)
  rw [List.drop_zero] at h
  exact h

theorem getEventCountBody_run (el : EventLogger δ) :
    GetEventCountBody el = some (GetEventCount el, el) := rfl

theorem clearEventsBody_run (el : EventLogger δ) :
    ClearEventsBody el = some ((), ClearEvents el) := rfl

theorem printEventsBody_run (format : Time → GoString) (el : EventLogger δ) (n i : Nat)
    (out : GoString) (h : i + n = el.events.length) :
    printEventsBody format i n out el = some (out ++ printEvents format (el.events.drop i), el) := by
  induction n generalizing i out with
  | zero =>
    have hd : el.events.drop i = [] := by
      apply List.drop_eq_nil_of_le; omega
    rw [hd, printEvents, List.append_nil]
    rfl
  | succ n ih =>
    have hi : i < el.events.length := by omega
    have hd : el.events.drop i = el.events[i] :: el.events.drop (i + 1) := by
      rw [List.drop_eq_getElem_cons hi]
    rw [hd, printEvents, printEventsBody, run_bind]
    simp only [eventAt, List.getElem?_eq_getElem hi]
    rw [ih (i + 1) _ (by omega)]
    simp only [List.append_assoc]

/-- The body of `PrintSummary` never panics, writes the text that
`PrintSummary` gives and leaves the receiver as it was. -/
theorem printSummaryBody_run (format : Time → GoString) (el : EventLogger δ) :
    PrintSummaryBody format el = some (PrintSummary format el, el) := by
  have h := printEventsBody_run format el el.events.length 0
    (goStr "Total Events: " ++ fmt.formatInt (el.events.length : Int) ++ goStr "\n" ++
      (strings.Repeat (goStr "-") 50 ++ goStr "\n")) (by omega)
  rw [List.drop_zero] at h
  exact h

/-- Claim C11, refuted as stated: on a machine with an `int` of 64 bits, in
the logger state with no events and `nextID` 9223372036854775807, the largest
`int`, `LogEvent` leaves `nextID` at -9223372036854775808: it has not
increased by 1. -/
theorem logEvent_wraps_at_largest_int :
    LogEventBody 64 5 (goStr "a") () { events := [], nextID := 9223372036854775807 } =
      some ({ ID := 9223372036854775807, Name := goStr "a", Timestamp := 5, Data := () },
        { events := [{ ID := 9223372036854775807, Name := goStr "a", Timestamp := 5, Data := () }],
          nextID := -9223372036854775808 }) ∧
    (-9223372036854775808 : Int) ≠ 9223372036854775807 + 1 := by
  decide

/-- Claim C11, amended: in every logger state `LogEvent(name, data)` returns
an event whose ID is the `nextID` from before the call, whose Name is `name`,
whose Data is `data` and whose Timestamp is the clock reading, and afterwards
that event is the last element of the stored sequence, which is the old
sequence with the event appended; when `nextID` was an `int` below the
largest `int`, `nextID` has increased by exactly 1 and the call is the
function `LogEvent`; at the largest `int` it wraps to the smallest. -/
theorem logEvent_returns_and_stores (bits : Nat) (el : EventLogger δ) (now : Time)
    (name : GoString) (data : δ) :
    ∃ (e : Event δ) (el' : EventLogger δ),
      LogEventBody bits now name data el = some (e, el') ∧
      e = { ID := el.nextID, Name := name, Timestamp := now, Data := data } ∧
      el'.events = el.events ++ [e] ∧
      el'.events.getLast? = some e ∧
      (minInt bits ≤ el.nextID ∧ el.nextID < maxInt bits →
        el'.nextID = el.nextID + 1 ∧
        (e, el') = ((LogEvent el now name data).2, (LogEvent el now name data).1)) ∧
      (el.nextID = maxInt bits → el'.nextID = minInt bits) := by
  refine ⟨_, _, logEventBody_run bits now name data el, rfl, rfl, by simp, ?_, ?_⟩
  · rintro ⟨h1, h2⟩
    have hs := intSucc_eq bits el.nextID h1 h2
    refine ⟨hs, ?_⟩
    simp only [LogEvent, hs]
  · intro h
    show intSucc bits el.nextID = minInt bits
    rw [h, intSucc_maxInt]

/-- Witness of claim C11, amended: a logger with one event and `nextID` 2, on
a machine with an `int` of 64 bits. -/
theorem logEvent_returns_and_stores_witness :
    (minInt 64 ≤ (LogEvent (NewEventLogger : EventLogger Nat) 10 (goStr "a") 0).1.nextID ∧
      (LogEvent (NewEventLogger : EventLogger Nat) 10 (goStr "a") 0).1.nextID < maxInt 64) ∧
    ∃ (e : Event Nat) (el' : EventLogger Nat),
      LogEventBody 64 11 (goStr "b") 1 (LogEvent (NewEventLogger : EventLogger Nat) 10 (goStr "a") 0).1
        = some (e, el') ∧
      el'.nextID = (LogEvent (NewEventLogger : EventLogger Nat) 10 (goStr "a") 0).1.nextID + 1 :=
  ⟨by decide,
    (logEvent_returns_and_stores 64 (LogEvent (NewEventLogger : EventLogger Nat) 10 (goStr "a") 0).1
      11 (goStr "b") 1).elim fun e h => h.elim fun el' h' =>
        ⟨e, el', h'.1, (h'.2.2.2.2.1 (by decide)).1⟩⟩

/-- Claim C12: on a logger fresh from `NewEventLogger` the count is 0 and
`GetEvent(id)` is nil for every integer `id`, also 1, 0 and -1; and in every
logger state `GetEventsByName` of a name that no stored event carries is an
empty sequence, of length 0. -/
theorem queries_report_absence (el : EventLogger δ) (name : GoString) :
    GetEventCount (NewEventLogger : EventLogger δ) = 0 ∧
    (∀ id : Int, GetEvent (NewEventLogger : EventLogger δ) id = none) ∧
    GetEvent (NewEventLogger : EventLogger δ) 1 = none ∧
    GetEvent (NewEventLogger : EventLogger δ) 0 = none ∧
    GetEvent (NewEventLogger : EventLogger δ) (-1) = none ∧
    ((∀ e ∈ el.events, e.Name ≠ name) →
      GetEventsByName el name = [] ∧ (GetEventsByName el name).length = 0) := by
  refine ⟨rfl, fun _ => rfl, rfl, rfl, rfl, ?_⟩
  intro h
  have e : GetEventsByName el name = [] := collectByName_nil_of_absent name el.events h
  rw [e]
  exact ⟨rfl, rfl⟩

/-- Witness of claim C12: a logger with two events, asked for a name that
neither carries. -/
theorem queries_report_absence_witness :
    (∀ e ∈ (runCalls (NewEventLogger : EventLogger Nat)
        [.logEvent 10 (goStr "a") 0, .logEvent 11 (goStr "b") 1]).events, e.Name ≠ goStr "c") ∧
    GetEventsByName (runCalls (NewEventLogger : EventLogger Nat)
        [.logEvent 10 (goStr "a") 0, .logEvent 11 (goStr "b") 1]) (goStr "c") = [] :=
  ⟨by decide,
    ((queries_report_absence (runCalls (NewEventLogger : EventLogger Nat)
        [.logEvent 10 (goStr "a") 0, .logEvent 11 (goStr "b") 1]) (goStr "c")).2.2.2.2.2
      (by decide)).1⟩

/-- Claim C13: after appending to a fresh logger events named "UserLogin",
"FileAccess" and "UserLogin", with any data and any timestamps, the count is
3, `GetEventsByName("UserLogin")` holds exactly the events with IDs 1 and 3,
in that order, and `GetEvent(2)` is the event named "FileAccess". -/
theorem demo_scenario (t1 t2 t3 : Time) (d1 d2 d3 : δ) :
    GetEventCount (runCalls (NewEventLogger : EventLogger δ)
      [.logEvent t1 (goStr "UserLogin") d1, .logEvent t2 (goStr "FileAccess") d2,
        .logEvent t3 (goStr "UserLogin") d3]) = 3 ∧
    GetEventsByName (runCalls (NewEventLogger : EventLogger δ)
      [.logEvent t1 (goStr "UserLogin") d1, .logEvent t2 (goStr "FileAccess") d2,
        .logEvent t3 (goStr "UserLogin") d3]) (goStr "UserLogin") =
      [{ ID := 1, Name := goStr "UserLogin", Timestamp := t1, Data := d1 },
       { ID := 3, Name := goStr "UserLogin", Timestamp := t3, Data := d3 }] ∧
    (GetEventsByName (runCalls (NewEventLogger : EventLogger δ)
      [.logEvent t1 (goStr "UserLogin") d1, .logEvent t2 (goStr "FileAccess") d2,
        .logEvent t3 (goStr "UserLogin") d3]) (goStr "UserLogin")).length = 2 ∧
    GetEvent (runCalls (NewEventLogger : EventLogger δ)
      [.logEvent t1 (goStr "UserLogin") d1, .logEvent t2 (goStr "FileAccess") d2,
        .logEvent t3 (goStr "UserLogin") d3]) 2 =
      some { ID := 2, Name := goStr "FileAccess", Timestamp := t2, Data := d2 } := by
  have hne : goStr "FileAccess" ≠ goStr "UserLogin" := by decide
  refine ⟨rfl, ?_, ?_, rfl⟩
  · simp [GetEventsByName, collectByName, runCalls, applyCall, LogEvent, NewEventLogger, hne]
  · simp [GetEventsByName, collectByName, runCalls, applyCall, LogEvent, NewEventLogger, hne]

/-- Claim C14: `LogEvent` leaves every stored event as it is and where it is:
the old sequence is a prefix of the new one, and so it is after any number of
`LogEvent` calls in a row and for the body of `LogEvent` on the machine; the
bodies of `GetEvent`, `GetEventsByName`, `GetEventCount` and `PrintSummary`
never panic, return what the functions of these names give and leave the
receiver, its stored sequence and its `nextID`, as it was; a method call that
changes the receiver is a `LogEvent` or a `ClearEvents`. -/
theorem log_is_append_only (bits : Nat) (format : Time → GoString) (el : EventLogger δ) :
    (∀ (now : Time) (name : GoString) (data : δ),
      el.events <+: (LogEvent el now name data).1.events ∧
      (∀ i : Nat, i < el.events.length →
        (LogEvent el now name data).1.events[i]? = el.events[i]?) ∧
      ∃ (e : Event δ) (el' : EventLogger δ),
        LogEventBody bits now name data el = some (e, el') ∧ el'.events = el.events ++ [e]) ∧
    (∀ args : List (Time × GoString × δ), el.events <+: (logAll el args).1.events) ∧
    (∀ id : Int, GetEventBody id el = some (GetEventSlot el id, el)) ∧
    (∀ name : GoString, GetEventsByNameBody name el = some (GetEventsByName el name, el)) ∧
    GetEventCountBody el = some (GetEventCount el, el) ∧
    PrintSummaryBody format el = some (PrintSummary format el, el) ∧
    (∀ (m : Method δ) (el' : EventLogger δ), receiverAfter bits format el m = some el' →
      el' ≠ el → (∃ now name data, m = .logEvent now name data) ∨ m = .clearEvents) := by
  refine ⟨?_, ?_, fun id => getEventBody_run id el, fun name => getEventsByNameBody_run name el,
    getEventCountBody_run el,
    printSummaryBody_run format el, ?_⟩
  · intro now name data
    refine ⟨?_, ?_, _, _, logEventBody_run bits now name data el, rfl⟩
    · simp [LogEvent]
    · intro i hi
      simp only [LogEvent]
      rw [List.getElem?_append_left hi]
  · intro args
    induction args generalizing el with
    | nil => simp [logAll]
    | cons a rest ih =>
      obtain ⟨now, name, data⟩ := a
      simp only [logAll]
      refine List.IsPrefix.trans ?_ (ih (LogEvent el now name data).1)
      simp [LogEvent]
  · intro m el' hrun hne
    cases m with
    | logEvent now name data => exact Or.inl ⟨now, name, data, rfl⟩
    | clearEvents => exact Or.inr rfl
    | getEvent id =>
      rw [receiverAfter, getEventBody_run, Option.map_some', Option.some.injEq] at hrun
      exact absurd hrun.symm hne
    | getEventsByName name =>
      rw [receiverAfter, getEventsByNameBody_run, Option.map_some', Option.some.injEq] at hrun
      exact absurd hrun.symm hne
    | getEventCount =>
      rw [receiverAfter, getEventCountBody_run, Option.map_some', Option.some.injEq] at hrun
      exact absurd hrun.symm hne
    | printSummary =>
      rw [receiverAfter, printSummaryBody_run, Option.map_some', Option.some.injEq] at hrun
      exact absurd hrun.symm hne

/-- Witness of claim C14: on a logger with one event a second `LogEvent` keeps
the first event at position 0, and a `LogEvent` call changes the receiver. -/
theorem log_is_append_only_witness :
    (0 < (LogEvent (NewEventLogger : EventLogger Nat) 10 (goStr "a") 0).1.events.length ∧
      receiverAfter 64 (fun _ => goStr "T")
          (LogEvent (NewEventLogger : EventLogger Nat) 10 (goStr "a") 0).1 (.logEvent 11 (goStr "b") 1)
        = some (LogEvent (LogEvent (NewEventLogger : EventLogger Nat) 10 (goStr "a") 0).1
            11 (goStr "b") 1).1 ∧
      (LogEvent (LogEvent (NewEventLogger : EventLogger Nat) 10 (goStr "a") 0).1 11 (goStr "b") 1).1
        ≠ (LogEvent (NewEventLogger : EventLogger Nat) 10 (goStr "a") 0).1) ∧
    (LogEvent (LogEvent (NewEventLogger : EventLogger Nat) 10 (goStr "a") 0).1 11 (goStr "b") 1).1.events[0]?
      = (LogEvent (NewEventLogger : EventLogger Nat) 10 (goStr "a") 0).1.events[0]? ∧
    ((∃ now name data, (Method.logEvent 11 (goStr "b") 1 : Method Nat) = .logEvent now name data) ∨
      (Method.logEvent 11 (goStr "b") 1 : Method Nat) = .clearEvents) :=
  ⟨⟨by decide, by decide, by decide⟩,
    ((log_is_append_only 64 (fun _ => goStr "T")
      (LogEvent (NewEventLogger : EventLogger Nat) 10 (goStr "a") 0).1).1
      11 (goStr "b") 1).2.1 0 (by decide),
    (log_is_append_only 64 (fun _ => goStr "T")
      (LogEvent (NewEventLogger : EventLogger Nat) 10 (goStr "a") 0).1).2.2.2.2.2.2
      (.logEvent 11 (goStr "b") 1)
      (LogEvent (LogEvent (NewEventLogger : EventLogger Nat) 10 (goStr "a") 0).1 11 (goStr "b") 1).1
      (by decide) (by decide)⟩

/-- Claim C18: in every logger reached from `NewEventLogger` by `LogEvent` and
`ClearEvents` calls `GetEvent(id)` is non-nil exactly when
`1 <= id <= GetEventCount()`, and then the scan stops at slot `id - 1` and
returns the stored event at that 0-based position. -/
theorem getEvent_is_direct_indexing (calls : List (Call δ)) (id : Int) :
    ((GetEvent (runCalls (NewEventLogger : EventLogger δ) calls) id).isSome = true ↔
      1 ≤ id ∧ id ≤ GetEventCount (runCalls (NewEventLogger : EventLogger δ) calls)) ∧
    (1 ≤ id ∧ id ≤ GetEventCount (runCalls (NewEventLogger : EventLogger δ) calls) →
      GetEventSlot (runCalls (NewEventLogger : EventLogger δ) calls) id = some (id - 1).toNat ∧
      GetEvent (runCalls (NewEventLogger : EventLogger δ) calls) id =
        (runCalls (NewEventLogger : EventLogger δ) calls).events[(id - 1).toNat]?) := by
  have hs := getEventSlot_reachable calls id
  by_cases h : 1 ≤ id ∧ id ≤ GetEventCount (runCalls (NewEventLogger : EventLogger δ) calls)
  · rw [if_pos h] at hs
    have hlt : (id - 1).toNat < (runCalls (NewEventLogger : EventLogger δ) calls).events.length := by
      have := h.2
      simp only [GetEventCount] at this
      omega
    have hg : GetEvent (runCalls (NewEventLogger : EventLogger δ) calls) id =
        (runCalls (NewEventLogger : EventLogger δ) calls).events[(id - 1).toNat]? := by
      rw [GetEvent, hs, Option.some_bind]
    refine ⟨⟨fun _ => h, fun _ => ?_⟩, fun _ => ⟨hs, hg⟩⟩
    rw [hg, List.getElem?_eq_getElem hlt]
    rfl
  · rw [if_neg h] at hs
    have hg : GetEvent (runCalls (NewEventLogger : EventLogger δ) calls) id = none := by
      rw [GetEvent, hs, Option.none_bind]
    refine ⟨⟨fun hsome => ?_, fun hh => absurd hh h⟩, fun hh => absurd hh h⟩
    rw [hg] at hsome
    cases hsome

/-- Witness of claim C18: after three appends `GetEvent(2)` stops at slot 1. -/
theorem getEvent_is_direct_indexing_witness :
    ((1 : Int) ≤ 2 ∧ (2 : Int) ≤ GetEventCount (runCalls (NewEventLogger : EventLogger Nat)
      [.logEvent 10 (goStr "a") 0, .logEvent 11 (goStr "b") 1, .logEvent 12 (goStr "c") 2])) ∧
    GetEventSlot (runCalls (NewEventLogger : EventLogger Nat)
      [.logEvent 10 (goStr "a") 0, .logEvent 11 (goStr "b") 1, .logEvent 12 (goStr "c") 2]) 2
      = some 1 :=
  ⟨by decide,
    ((getEvent_is_direct_indexing
      [.logEvent 10 (goStr "a") 0, .logEvent 11 (goStr "b") 1, .logEvent 12 (goStr "c") 2] 2).2
      (by decide)).1⟩

end EventLog

/-! ## Theorems: `PrintSummary` -/

namespace fmt

theorem decimalDigits_bytes (fuel u : Nat) (buf : GoString) (hu : u ≤ fuel) :
    ∀ b ∈ decimalDigits fuel u buf, b ∈ buf ∨ ('0'.toNat ≤ b.val ∧ b.val ≤ '9'.toNat) := by
  induction fuel generalizing u buf with
  | zero =>
    intro b hb
    have h0 : u = 0 := by omega
    subst h0
    rw [decimalDigits, List.mem_cons] at hb
    rcases hb with hb | hb
    · right; rw [hb]; decide
    · left; exact hb
  | succ fuel ih =>
    intro b hb
    rw [decimalDigits] at hb
    split_ifs at hb with h10
    · rcases ih (u / 10) _ (by omega) b hb with h | h
      · rw [List.mem_cons] at h
        rcases h with h | h
        · right
          rw [h, utf8.byteOf_val]
          simp only [Char.reduceToNat]
          omega
        · left; exact h
      · right; exact h
    · rw [List.mem_cons] at hb
      rcases hb with hb | hb
      · right
        rw [hb, utf8.byteOf_val]
        simp only [Char.reduceToNat]
        omega
      · left; exact hb

/-- The text of `%d` holds digits and at most a minus sign: no line feed. -/
theorem newline_not_mem_formatInt (i : Int) : EventLog.newline ∉ formatInt i := by
  intro h
  have hd : ∀ b ∈ decimalDigits i.natAbs i.natAbs [], '0'.toNat ≤ b.val ∧ b.val ≤ '9'.toNat := by
    intro b hb
    rcases decimalDigits_bytes i.natAbs i.natAbs [] (le_refl _) b hb with h1 | h1
    · cases h1
    · exact h1
  rw [formatInt] at h
  split_ifs at h
  · rw [List.mem_cons] at h
    rcases h with h | h
    · revert h; decide
    · have := hd _ h
      revert this; decide
  · have := hd _ h
    revert this; decide

end fmt

namespace EventLog

variable {δ : Type}

theorem linesFrom_line (line rest cur : GoString) (h : newline ∉ line) :
    linesFrom cur (line ++ newline :: rest) = (cur ++ line) :: linesFrom [] rest := by
  induction line generalizing cur with
  | nil => simp [linesFrom]
  | cons b line ih =>
    have hb : b ≠ newline := fun e => h (e ▸ List.mem_cons_self _ _)
    have hl : newline ∉ line := fun e => h (List.mem_cons_of_mem _ e)
    rw [List.cons_append, linesFrom, if_neg hb, ih _ hl]
    simp

theorem linesOf_flatMap (ls : List GoString) (h : ∀ l ∈ ls, newline ∉ l) :
    linesOf (ls.flatMap fun l => l ++ [newline]) = ls := by
  induction ls with
  | nil => rfl
  | cons l ls ih =>
    have e : (l :: ls).flatMap (fun l => l ++ [newline])
        = l ++ newline :: (ls.flatMap fun l => l ++ [newline]) := by
      simp [List.flatMap_cons]
    rw [e, linesOf, linesFrom_line _ _ _ (h l (List.mem_cons_self _ _)), List.nil_append]
    congr 1
    exact ih (fun x hx => h x (List.mem_cons_of_mem _ hx))

theorem printEvents_eq (format : Time → GoString) (l : List (Event δ)) :
    printEvents format l =
      (l.map fun e => goStr "ID: " ++ fmt.formatInt e.ID ++ goStr " | Name: " ++ e.Name ++
        goStr " | Time: " ++ format e.Timestamp).flatMap fun l => l ++ [newline] := by
  induction l with
  | nil => rfl
  | cons e rest ih =>
    have hn : goStr "\n" = [newline] := by decide
    rw [printEvents, ih, hn]
    simp [List.flatMap_cons]

theorem printSummary_eq (format : Time → GoString) (el : EventLogger δ) :
    PrintSummary format el = (summaryLines format el).flatMap fun l => l ++ [newline] := by
  have hn : goStr "\n" = [newline] := by decide
  have hd : strings.Repeat (goStr "-") 50 = List.replicate 50 (byteOf '-'.toNat) := by decide
  rw [PrintSummary, printEvents_eq, hn, hd, summaryLines]
  simp [List.flatMap_cons, List.flatMap_append]

end EventLog

namespace EventLog

variable {δ : Type}

theorem newline_not_mem_append {a b : GoString} (ha : newline ∉ a) (hb : newline ∉ b) :
    newline ∉ a ++ b := by
  intro h
  rcases List.mem_append.1 h with h | h
  · exact ha h
  · exact hb h

/-- Claim C15, refuted as stated: a logger holding the one event named
"a\nb" has a summary of four lines, not three; the line of the event is
broken in two by the line feed of its name. -/
theorem printSummary_name_with_newline :
    GetEventCount (LogEvent (NewEventLogger : EventLogger Unit) 0 (goStr "a\nb") ()).1 = 1 ∧
    linesOf (PrintSummary (fun _ => goStr "2024-01-15 10:30:00")
        (LogEvent (NewEventLogger : EventLogger Unit) 0 (goStr "a\nb") ()).1) =
      [goStr "Total Events: 1", goStr "--------------------------------------------------",
        goStr "ID: 1 | Name: a", goStr "b | Time: 2024-01-15 10:30:00"] ∧
    (linesOf (PrintSummary (fun _ => goStr "2024-01-15 10:30:00")
        (LogEvent (NewEventLogger : EventLogger Unit) 0 (goStr "a\nb") ()).1)).length ≠ 1 + 2 := by
  decide

/-- Claim C15, amended: for every logger state holding n events the text
written by `PrintSummary` is n + 2 records, each ended by a line feed: the
record "Total Events: n" with n in decimal, the record of exactly 50 dashes,
and one record "ID: id | Name: name | Time: formatted timestamp" per stored
event in stored order; when no stored name and no formatted timestamp holds a
line feed, these records are exactly the lines of the text; on an empty
logger the text is "Total Events: 0", the 50 dashes and nothing more. -/
theorem printSummary_records (format : Time → GoString) (el : EventLogger δ) :
    PrintSummary format el = ((summaryLines format el).flatMap fun l => l ++ [newline]) ∧
    (summaryLines format el).length = el.events.length + 2 ∧
    ((∀ e ∈ el.events, newline ∉ e.Name ∧ newline ∉ format e.Timestamp) →
      linesOf (PrintSummary format el) = summaryLines format el) ∧
    PrintSummary format (NewEventLogger : EventLogger δ) =
      goStr "Total Events: 0\n--------------------------------------------------\n" := by
  refine ⟨printSummary_eq format el, ?_, ?_, rfl⟩
  · simp [summaryLines]
  · intro h
    rw [printSummary_eq]
    apply linesOf_flatMap
    intro l hl
    simp only [summaryLines, List.cons_append, List.nil_append, List.mem_cons, List.mem_map] at hl
    rcases hl with hl | hl | ⟨e, he, hl⟩
    · rw [hl]
      exact newline_not_mem_append (by decide) (fmt.newline_not_mem_formatInt _)
    · rw [hl]; decide
    · rw [← hl]
      exact newline_not_mem_append (newline_not_mem_append (newline_not_mem_append
        (newline_not_mem_append (newline_not_mem_append (by decide)
          (fmt.newline_not_mem_formatInt _)) (by decide)) (h e he).1) (by decide)) (h e he).2

/-- Witness of claim C15, amended: a logger with the events "UserLogin" and
"FileAccess". -/
theorem printSummary_records_witness :
    (∀ e ∈ (runCalls (NewEventLogger : EventLogger Unit)
        [.logEvent 10 (goStr "UserLogin") (), .logEvent 11 (goStr "FileAccess") ()]).events,
      newline ∉ e.Name ∧ newline ∉ (fun _ : Time => goStr "2024-01-15 10:30:00") e.Timestamp) ∧
    linesOf (PrintSummary (fun _ => goStr "2024-01-15 10:30:00")
        (runCalls (NewEventLogger : EventLogger Unit)
          [.logEvent 10 (goStr "UserLogin") (), .logEvent 11 (goStr "FileAccess") ()])) =
      summaryLines (fun _ => goStr "2024-01-15 10:30:00")
        (runCalls (NewEventLogger : EventLogger Unit)
          [.logEvent 10 (goStr "UserLogin") (), .logEvent 11 (goStr "FileAccess") ()]) :=
  ⟨by decide,
    (printSummary_records (fun _ => goStr "2024-01-15 10:30:00")
      (runCalls (NewEventLogger : EventLogger Unit)
        [.logEvent 10 (goStr "UserLogin") (), .logEvent 11 (goStr "FileAccess") ()])).2.2.1
      (by decide)⟩

end EventLog

/-! ## Theorems: `ToTitle` on ASCII text, continued -/

namespace strings

theorem titleRunes_of_nonsep (U : unicode.Tables) (l : List Nat) (prev : Nat)
    (hp : isSeparator U prev = false) (hl : ∀ r ∈ l, isSeparator U r = false) :
    titleRunes U prev l = l := by
  induction l generalizing prev with
  | nil => rfl
  | cons a rest ih =>
    rw [titleRunes, hp, ih a (hl a (List.mem_cons_self _ _))
      (fun x hx => hl x (List.mem_cons_of_mem _ hx))]
    rfl

theorem titleRunes_length (U : unicode.Tables) (l : List Nat) (prev : Nat) :
    (titleRunes U prev l).length = l.length := by
  induction l generalizing prev with
  | nil => rfl
  | cons a rest ih => rw [titleRunes, List.length_cons, List.length_cons, ih a]

theorem titleRunes_getElem? (U : unicode.Tables) (l : List Nat) (prev i x : Nat)
    (h : l[i]? = some x) :
    (titleRunes U prev l)[i]? = some x ∨ (titleRunes U prev l)[i]? = some (unicode.ToTitle U x) := by
  induction l generalizing prev i with
  | nil => simp at h
  | cons a rest ih =>
    cases i with
    | zero =>
      simp only [List.getElem?_cons_zero, Option.some.injEq] at h
      subst h
      rw [titleRunes]
      simp only [List.getElem?_cons_zero, Option.some.injEq]
      split_ifs
      · right; rfl
      · left; rfl
    | succ i =>
      simp only [List.getElem?_cons_succ] at h
      rw [titleRunes]
      simp only [List.getElem?_cons_succ]
      exact ih a i h

end strings

namespace StringUtils

theorem letter_lt (b : Byte) (h : isASCIILetter b = true) : b.val < 0x80 := by
  simp only [isASCIILetter, Char.reduceToNat, Bool.or_eq_true, Bool.and_eq_true,
    decide_eq_true_eq] at h
  omega

theorem letter_not_separator (U : unicode.Tables) (b : Byte) (h : isASCIILetter b = true) :
    strings.isSeparator U (unicode.ToLower U b.val) = false := by
  have hb := letter_lt b h
  have hb2 : b.val ≤ 0x7F := by omega
  have hl := unicode.toLower_le U b.val hb2
  simp only [isASCIILetter, Char.reduceToNat, Bool.or_eq_true, Bool.and_eq_true,
    decide_eq_true_eq] at h
  simp only [strings.isSeparator, hl, if_true]
  simp only [unicode.ToLower, hb2, if_true, Char.reduceToNat]
  split_ifs <;> first | rfl | omega

theorem byteOf_toLower (U : unicode.Tables) (b : Byte) (h : b.val < 0x80) :
    byteOf (unicode.ToLower U b.val) = asciiLower b := by
  have hb2 : b.val ≤ 0x7F := by omega
  simp only [unicode.ToLower, hb2, if_true, asciiLower]
  split_ifs
  · rfl
  · apply Fin.ext
    rw [utf8.byteOf_val]
    omega

theorem byteOf_toTitle_toLower (U : unicode.Tables) (b : Byte) (h : isASCIILetter b = true) :
    byteOf (unicode.ToTitle U (unicode.ToLower U b.val)) = asciiUpper b := by
  have hb := letter_lt b h
  have hb2 : b.val ≤ 0x7F := by omega
  have hl := unicode.toLower_le U b.val hb2
  simp only [isASCIILetter, Char.reduceToNat, Bool.or_eq_true, Bool.and_eq_true,
    decide_eq_true_eq] at h
  apply Fin.ext
  simp only [unicode.ToTitle, hl, if_true, asciiUpper]
  simp only [unicode.ToLower, hb2, if_true, Char.reduceToNat, utf8.byteOf_val]
  split_ifs <;> (try simp only [utf8.byteOf_val]) <;> omega

/-- Claim C16: for every non-empty string of ASCII letters `ToTitle` returns
the upper-case form of the first letter followed by the lower-case forms of
the other letters; `ToTitle("HELLO") == "Hello"`. -/
theorem toTitle_single_word (U : unicode.Tables) (c : Byte) (rest : GoString)
    (h : ∀ b ∈ c :: rest, isASCIILetter b = true) :
    ToTitle U (c :: rest) = asciiUpper c :: rest.map asciiLower ∧
    ToTitle U (goStr "HELLO") = goStr "Hello" := by
  refine ⟨?_, rfl⟩
  have ha : ∀ b ∈ c :: rest, b.val < 0x80 := fun b hb => letter_lt b (h b hb)
  have hc := h c (List.mem_cons_self _ _)
  have hsep : strings.isSeparator U ' '.toNat = true := by
    simp [strings.isSeparator]
  rw [toTitle_ascii U _ ha, List.map_cons, strings.titleRunes, hsep, if_pos rfl,
    strings.titleRunes_of_nonsep U _ _ (letter_not_separator U c hc), List.map_cons,
    byteOf_toTitle_toLower U c hc, List.map_map]
  · congr 1
    apply List.map_congr_left
    intro b hb
    exact byteOf_toLower U b (ha b (List.mem_cons_of_mem _ hb))
  · intro r hr
    rw [List.mem_map] at hr
    obtain ⟨b, hb, rfl⟩ := hr
    exact letter_not_separator U b (h b (List.mem_cons_of_mem _ hb))

/-- Witness of claim C16: the string "gOPHER". -/
theorem toTitle_single_word_witness :
    (∀ b ∈ goStr "gOPHER", isASCIILetter b = true) ∧
    ToTitle unicode.noTables (goStr "gOPHER") = goStr "Gopher" :=
  ⟨by decide,
    (toTitle_single_word unicode.noTables (byteOf 'g'.toNat) (goStr "OPHER") (by decide)).1⟩

/-- Claim C17: for every ASCII string `ToTitle` returns a string of the same
length, in which every byte that is not an ASCII letter stands unchanged at
its position and every other byte differs from the input at most in case. -/
theorem toTitle_changes_only_case (U : unicode.Tables) (s : GoString)
    (h : ∀ b ∈ s, b.val < 0x80) :
    (ToTitle U s).length = s.length ∧
    ∀ (i : Nat) (b : Byte), s[i]? = some b →
      ∃ b' : Byte, (ToTitle U s)[i]? = some b' ∧
        (isASCIILetter b = false → b' = b) ∧
        (isASCIILetter b' = isASCIILetter b ∧ asciiLower b' = asciiLower b) := by
  rw [toTitle_ascii U s h]
  refine ⟨by simp [strings.titleRunes_length], ?_⟩
  intro i b hb
  have hb1 : b.val < 0x80 := h b (List.getElem?_mem hb)
  have hb2 : b.val ≤ 0x7F := by omega
  have hl : (s.map fun b => unicode.ToLower U b.val)[i]? = some (unicode.ToLower U b.val) := by
    rw [List.getElem?_map, hb]
    rfl
  have hlo := unicode.toLower_le U b.val hb2
  have key : ∀ r : Nat, (r = unicode.ToLower U b.val ∨ r = unicode.ToTitle U (unicode.ToLower U b.val)) →
      (isASCIILetter b = false → byteOf r = b) ∧
      (isASCIILetter (byteOf r) = isASCIILetter b ∧ asciiLower (byteOf r) = asciiLower b) := by
    intro r hr
    have hr2 : r = unicode.ToLower U b.val ∨ r = unicode.ToTitle U (unicode.ToLower U b.val) := hr
    simp only [unicode.ToTitle, hlo, if_true] at hr2
    simp only [unicode.ToLower, hb2, if_true, Char.reduceToNat] at hr2
    have hcases : (r = b.val) ∨ (65 ≤ b.val ∧ b.val ≤ 90 ∧ r = b.val + 32) ∨
        (97 ≤ b.val ∧ b.val ≤ 122 ∧ r = b.val - 32) := by
      rcases hr2 with h1 | h1
      · split_ifs at h1 <;> omega
      · split_ifs at h1 <;> omega
    have hval : (byteOf r).val = r := by
      rw [utf8.byteOf_val]; omega
    refine ⟨?_, ?_, ?_⟩
    · intro hn
      simp only [isASCIILetter, Char.reduceToNat, Bool.or_eq_false_iff, Bool.and_eq_false_imp,
        decide_eq_true_eq, decide_eq_false_iff_not] at hn
      apply Fin.ext
      rw [hval]
      omega
    · simp only [isASCIILetter, Char.reduceToNat, hval]
      rcases hcases with h1 | h1 | h1
      · rw [h1]
      · have e1 : decide (65 ≤ b.val) = true := by simpa using h1.1
        have e2 : decide (b.val ≤ 90) = true := by simpa using h1.2.1
        have e3 : decide (97 ≤ r) = true := by simp; omega
        have e4 : decide (r ≤ 122) = true := by simp; omega
        simp [e1, e2, e3, e4]
      · have e1 : decide (97 ≤ b.val) = true := by simpa using h1.1
        have e2 : decide (b.val ≤ 122) = true := by simpa using h1.2.1
        have e3 : decide (65 ≤ r) = true := by simp; omega
        have e4 : decide (r ≤ 90) = true := by simp; omega
        simp [e1, e2, e3, e4]
    · apply Fin.ext
      simp only [asciiLower, Char.reduceToNat, hval]
      split_ifs <;> (try simp only [utf8.byteOf_val]) <;> omega
  rcases strings.titleRunes_getElem? U _ ' '.toNat i _ hl with hg | hg
  · refine ⟨byteOf (unicode.ToLower U b.val), ?_, key _ (Or.inl rfl)⟩
    rw [List.getElem?_map, hg]
    rfl
  · refine ⟨byteOf (unicode.ToTitle U (unicode.ToLower U b.val)), ?_, key _ (Or.inr rfl)⟩
    rw [List.getElem?_map, hg]
    rfl

/-- Witness of claim C17: in "go-1.22 rocks!" the byte at position 2 is the
hyphen, and it stays. -/
theorem toTitle_changes_only_case_witness :
    (∀ b ∈ goStr "go-1.22 rocks!", b.val < 0x80) ∧
    (ToTitle unicode.noTables (goStr "go-1.22 rocks!")).length = (goStr "go-1.22 rocks!").length :=
  ⟨by decide, (toTitle_changes_only_case unicode.noTables (goStr "go-1.22 rocks!") (by decide)).1⟩

/-- Claim C19: for every input string the swap loop of `Reverse` ends within
`len/2 + 1` evaluations of its condition, whatever larger bound it is given,
never reads or writes outside the slice of code points, and returns a slice
of the same length; `Reverse` returns a string with exactly as many code
points as the input. -/
theorem reverse_terminates_in_bounds (input : GoString) :
    (∀ fuel : Nat, (runesOf input).length / 2 < fuel →
      ∃ out : List Nat,
        swapLoop fuel (runesOf input) 0 (((runesOf input).length : Int) - 1) = some out ∧
        out.length = (runesOf input).length) ∧
    ∃ result : GoString, Reverse input = some result ∧
      (runesOf result).length = (runesOf input).length := by
  refine ⟨?_, ?_⟩
  · intro fuel hf
    have h := swapLoop_segment fuel [] (runesOf input) [] hf
    simp only [List.nil_append, List.append_nil, List.length_nil, Nat.cast_zero,
      zero_add] at h
    exact ⟨_, h, List.length_reverse _⟩
  · refine ⟨_, reverse_eq input, ?_⟩
    rw [runesOf_stringOfRunes, List.length_reverse]
    intro r hr
    exact validRune_runesOf input r (List.mem_reverse.1 hr)

/-- Witness of claim C19: on "héllo", of five code points, three evaluations
of the loop condition are enough. -/
theorem reverse_terminates_in_bounds_witness :
    (runesOf (goStr "héllo")).length / 2 < 3 ∧
    ∃ out : List Nat,
      swapLoop 3 (runesOf (goStr "héllo")) 0 (((runesOf (goStr "héllo")).length : Int) - 1)
        = some out ∧
      out.length = (runesOf (goStr "héllo")).length :=
  ⟨by decide, (reverse_terminates_in_bounds (goStr "héllo")).1 3 (by decide)⟩

end StringUtils
